import Mathlib

/-!
Shallow embedding, in Lean 4, of the parts of the `multipars` two-party
SPDZ2k-style offline preprocessor that the specification claims talk about.

Conventions used throughout:

* Machine integers (`crypto_bigint::Uint<NLIMBS>`) are modelled as natural
  numbers; an `NLIMBS`-limb word has bit width `W = 64 * NLIMBS` and wrapping
  arithmetic is arithmetic followed by `% 2 ^ W`.
* `NativeResidue<BITS, NLIMBS>` (an element of `ℤ/2^BITS` stored in the low
  `BITS` bits of a `W`-bit word) is modelled by the natural-number value of its
  stored word; `retrieve` masks down to the low `BITS` bits.
* Values of residue vectors exchanged by the two parties are modelled as
  integers (`ℤ`), with every wrapping ring operation writing its explicit
  modulus `% 2 ^ w`.
* Polynomial-ring elements of `R_q = ℤ_q[X]/Φ_M(X)` are modelled by their
  power-basis coefficient vector in the basis `X^1, …, X^{M-1}` used by the
  source (`PowerPoly` stores the coefficient of `X^p` at index `p % (M-1)`).

Each definition cites the Rust source location it is translated from.
-/

namespace NativeResidue

/-- `Uint::wrapping_add` on a `W`-bit word
(`src/src/bgv/residue/native.rs`, `impl Add for NativeResidue`, lines 68-77). -/
def wrapping_add (W x y : ℕ) : ℕ := (x + y) % 2 ^ W

/-- `Uint::wrapping_sub` on a `W`-bit word
(`src/src/bgv/residue/native.rs`, `impl Sub for NativeResidue`, lines 79-88). -/
def wrapping_sub (W x y : ℕ) : ℕ := (x + (2 ^ W - y % 2 ^ W)) % 2 ^ W

/-- `Uint::wrapping_mul` on a `W`-bit word
(`src/src/bgv/residue/native.rs`, `impl Mul for NativeResidue`, lines 90-99). -/
def wrapping_mul (W x y : ℕ) : ℕ := x * y % 2 ^ W

/-- `NativeResidue::retrieve` (`src/src/bgv/residue/native.rs`, lines 136-143):
mask the bits of the top limb above bit `BITS`.  Because the code asserts
`cutoff = W - BITS < 64`, only the top limb carries bits at positions
`≥ BITS`, so the masked word is exactly the value modulo `2 ^ BITS`. -/
def retrieve (BITS x : ℕ) : ℕ := x % 2 ^ BITS

/-- `impl PartialEq for NativeResidue` (`src/src/bgv/residue/native.rs`,
lines 41-48): equality of the `retrieve`d forms. -/
def beq (BITS x y : ℕ) : Bool := retrieve BITS x == retrieve BITS y

/-- `crypto_bigint::Uint::inv_mod2k_vartime(k)`, the classical bit-by-bit
inversion modulo `2^k` used by `NativeResidue::invert`: at step `i` the low bit
of the running value `b` becomes bit `i` of the result `x` and
`b := (b - bit * self) >> 1` (wrapping at width `W`). -/
def inv_mod2k_vartime (W x k : ℕ) : ℕ :=
  ((List.range k).foldl
    (fun p i =>
      let bit := p.2 % 2
      (p.1 + bit * 2 ^ i, wrapping_sub W p.2 (bit * x) / 2))
    ((0 : ℕ), (1 : ℕ))).1

/-- `NativeResidue::invert` (`src/src/bgv/residue/native.rs`, lines 178-183):
returns `(self.0.inv_mod2k_vartime(BITS), CtChoice::TRUE)`; the existence flag
is the constant `TRUE` (the `TODO` in the source notes that it should be
`FALSE` for even inputs). -/
def invert (W BITS x : ℕ) : ℕ × Bool := (inv_mod2k_vartime W x BITS, true)

end NativeResidue

/-- `Share<KS, K, PID>` (`src/src/interface.rs`, lines 9-21): an authenticated
share; `val` and `tag` are elements of `KS = ℤ/2^(k+s)`, modelled by canonical
natural numbers.  By the mod-`2^BITS` well-definedness of `NativeResidue`
arithmetic, working with canonical representatives at width `w = k + s` is
faithful. -/
structure Share where
  val : ℕ
  tag : ℕ
  deriving DecidableEq

namespace Share

/-- `impl From<K> for Share` (`src/src/interface.rs`, lines 101-116): party 0
lifts the cleartext (`KS::from_uint(cleartext.retrieve())`, low `k` bits),
party 1 takes zero; the tag is `KS::ZERO` with the source comment
`// TODO: Correct tag`. -/
def ofK (k : ℕ) (pid : ℕ) (c : ℕ) : Share :=
  if pid = 0 then { val := c % 2 ^ k, tag := 0 } else { val := 0, tag := 0 }

/-- `impl AddAssign<Self> for Share` (`src/src/interface.rs`, lines 152-161):
componentwise wrapping addition at width `w = k + s`. -/
def add (w : ℕ) (a b : Share) : Share :=
  { val := (a.val + b.val) % 2 ^ w, tag := (a.tag + b.tag) % 2 ^ w }

/-- `impl Neg for Share` (`src/src/interface.rs`, lines 245-257):
`KS::ZERO - val` and `KS::ZERO - tag`. -/
def neg (w : ℕ) (a : Share) : Share :=
  { val := (2 ^ w - a.val % 2 ^ w) % 2 ^ w, tag := (2 ^ w - a.tag % 2 ^ w) % 2 ^ w }

/-- `impl AddAssign<K> for Share` (`src/src/interface.rs`, lines 168-176):
`*self += Self::from(rhs)`. -/
def addK (k w : ℕ) (pid : ℕ) (a : Share) (c : ℕ) : Share :=
  add w a (ofK k pid c)

/-- `impl SubAssign<Self> for Share` (`src/src/interface.rs`, lines 215-223):
`*self += -rhs`. -/
def sub (w : ℕ) (a b : Share) : Share := add w a (neg w b)

/-- `impl SubAssign<K> for Share` (`src/src/interface.rs`, lines 230-238):
`*self -= Self::from(rhs)`. -/
def subK (k w : ℕ) (pid : ℕ) (a : Share) (c : ℕ) : Share :=
  sub w a (ofK k pid c)

/-- `impl MulAssign<K> for Share` (`src/src/interface.rs`, lines 281-291):
multiply `val` and `tag` by `KS::from_unsigned(rhs)` (the low `k` bits of the
public constant), wrapping at width `w`. -/
def mulK (k w : ℕ) (a : Share) (c : ℕ) : Share :=
  { val := a.val * (c % 2 ^ k) % 2 ^ w, tag := a.tag * (c % 2 ^ k) % 2 ^ w }

/-- The SPDZ2k MAC invariant for a pair of shares of `x` under the combined
MAC key `α = α₀ + α₁` (spec §3, `src/src/mac_check_opener/mod.rs` lines 69-94:
the opener accepts exactly when `tag₀ + tag₁ ≡ (α₀+α₁)·(val₀+val₁)`). -/
def macInvariant (w : ℕ) (α : ℕ) (s0 s1 : Share) (x : ℕ) : Prop :=
  (s0.val + s1.val) % 2 ^ w = x % 2 ^ w ∧
  (s0.tag + s1.tag) % 2 ^ w = α * x % 2 ^ w

end Share

/-- The bound `B = 3·(M−1)²·num_ciphertexts·num_proofs·inv_fail_prob` of
`check_bounds` (`src/src/bgv/zkpopk/mod.rs`, lines 40-45). -/
def zkpopkBound (M nc npr pinv : ℕ) : ℤ :=
  ((3 * (M - 1) * (M - 1) * nc * npr * pinv : ℕ) : ℤ)

/-- `check_bounds` (`src/src/bgv/zkpopk/mod.rs`, lines 28-68).
`W` is the bit width of the extended uint holding `noised_plaintext` entries
(which store the plaintext in the low `b` bits and the signed noise above);
`e_1` and `v` entries are `i64` values, modelled as integers (the comparisons
do not wrap for the magnitudes reachable in the protocol).
The first check computes `positive_val = uint.wrapping_add(shifted_bound)` and
rejects when `positive_val ≥ shifted_bound << 1`. -/
def check_bounds (W b M nc npr pinv : ℕ) (np e1 v : List ℤ) : Bool :=
  let bound := zkpopkBound M nc npr pinv
  let shifted_bound := 21 * bound % 2 ^ W * 2 ^ b % 2 ^ W
  let positive_bound := shifted_bound * 2 % 2 ^ W
  (np.all fun u => decide ((u + shifted_bound) % 2 ^ W < positive_bound)) &&
  (e1.all fun x => !decide (-(20 * bound) > x ∨ x ≥ 20 * bound)) &&
  (v.all fun x => !decide (-bound > x ∨ x ≥ bound))

/-- Two's-complement interpretation of the low `n` bits of an integer: the
unique representative of `u mod 2^n` in `[-2^(n-1), 2^(n-1))`. -/
def toSigned (n : ℕ) (u : ℤ) : ℤ :=
  if u % 2 ^ n < 2 ^ (n - 1) then u % 2 ^ n else u % 2 ^ n - 2 ^ n

namespace Truncer

/-- The three vectors exchanged in the `ComMsg` of `Truncer::truncate`
(`src/src/low_gear_preproc/truncer.rs`, lines 10-15). -/
structure ComVecs (n : ℕ) where
  hat_a_tags : Fin n → ℤ
  hat_c : Fin n → ℤ
  hat_c_tags : Fin n → ℤ
  deriving DecidableEq

/-- One party's input vectors to `Truncer::truncate`
(`src/src/low_gear_preproc/truncer.rs`, lines 38-51): `wide_a`, `wide_a_tags`,
`wide_c`, `wide_c_tags` are `KSS = ℤ/2^(k+2s)` residues, `b` is a `K`
residue vector and `b_tags` a `KS` residue vector. -/
structure TruncIn (n : ℕ) where
  wide_a : Fin n → ℤ
  wide_a_tags : Fin n → ℤ
  b : Fin n → ℤ
  b_tags : Fin n → ℤ
  wide_c : Fin n → ℤ
  wide_c_tags : Fin n → ℤ

/-- Steps 2-3 of `Truncer::truncate`
(`src/src/low_gear_preproc/truncer.rs`, lines 70-98): from the own inputs and
the remote `a_mod2s` message `ra`, compute `sigma_a` (sum of the two `S`-lifts
in `KS`) and the corrected `hat` vectors
`hat_a_tags = wide_a_tags - σ·mac_key`, `hat_c = wide_c - σ·b`,
`hat_c_tags = wide_c_tags - σ·b_tags` (all wrapping in `KSS`). -/
def hats (k s : ℕ) (α : ℤ) {n : ℕ} (inp : TruncIn n) (ra : Fin n → ℤ) :
    ComVecs n :=
  let σ : Fin n → ℤ := fun j => (inp.wide_a j % 2 ^ s + ra j % 2 ^ s) % 2 ^ (k + s)
  { hat_a_tags := fun j => (inp.wide_a_tags j - σ j * (α % 2 ^ s)) % 2 ^ (k + 2 * s)
    hat_c := fun j => (inp.wide_c j - σ j * (inp.b j % 2 ^ k)) % 2 ^ (k + 2 * s)
    hat_c_tags := fun j =>
      (inp.wide_c_tags j - σ j * (inp.b_tags j % 2 ^ (k + s))) % 2 ^ (k + 2 * s) }

/-- `shift` (`src/src/low_gear_preproc/truncer.rs`, lines 190-196): right-shift
a `KSS` value by `KSS::BITS - KS::BITS = s` bits and reduce into `KS`. -/
def shift (k s : ℕ) (x : ℤ) : ℤ := x / 2 ^ s % 2 ^ (k + s)

/-- `Truncer::truncate` for one party
(`src/src/low_gear_preproc/truncer.rs`, lines 38-187), as a function of the
party's own inputs, the remote `a_mod2s` message and the remote `ComMsg`.
Party 0 adds each received mod-`2^s` value into its own `hat` vector, checks
the result is `0 mod 2^s`, and right-shifts the updated vectors; every other
party checks that the two exchanged mod-`2^s` values sum to `0 mod 2^s` and
right-shifts its own pristine `hat` vectors.  A failed check is the
`assert_eq!` panic in `check_is_zero_mod2s`, modelled as `none`. -/
def truncate (k s : ℕ) (α : ℤ) (pid : ℕ) {n : ℕ} (inp : TruncIn n)
    (ra : Fin n → ℤ) (rcom : ComVecs n) :
    Option ((Fin n → ℤ) × (Fin n → ℤ) × (Fin n → ℤ) × (Fin n → ℤ)) :=
  let h := hats k s α inp ra
  if pid = 0 then
    let dat : Fin n → ℤ := fun j =>
      (h.hat_a_tags j + rcom.hat_a_tags j % 2 ^ s) % 2 ^ (k + 2 * s)
    let dc : Fin n → ℤ := fun j =>
      (h.hat_c j + rcom.hat_c j % 2 ^ s) % 2 ^ (k + 2 * s)
    let dct : Fin n → ℤ := fun j =>
      (h.hat_c_tags j + rcom.hat_c_tags j % 2 ^ s) % 2 ^ (k + 2 * s)
    if ∀ j, dat j % 2 ^ s = 0 ∧ dc j % 2 ^ s = 0 ∧ dct j % 2 ^ s = 0 then
      some (fun j => shift k s (inp.wide_a j), fun j => shift k s (dat j),
            fun j => shift k s (dc j), fun j => shift k s (dct j))
    else none
  else
    if ∀ j,
        (h.hat_a_tags j % 2 ^ s + rcom.hat_a_tags j % 2 ^ s) % 2 ^ (k + s) % 2 ^ s = 0 ∧
        (h.hat_c j % 2 ^ s + rcom.hat_c j % 2 ^ s) % 2 ^ (k + s) % 2 ^ s = 0 ∧
        (h.hat_c_tags j % 2 ^ s + rcom.hat_c_tags j % 2 ^ s) % 2 ^ (k + s) % 2 ^ s = 0 then
      some (fun j => shift k s (inp.wide_a j), fun j => shift k s (h.hat_a_tags j),
            fun j => shift k s (h.hat_c j), fun j => shift k s (h.hat_c_tags j))
    else none

/-- The mod-`2^s` image of a `ComVecs`, i.e. the `ComMsg` a party sends
(`src/src/low_gear_preproc/truncer.rs`, lines 94-98). -/
def comMsg {n : ℕ} (s : ℕ) (h : ComVecs n) : ComVecs n :=
  { hat_a_tags := fun j => h.hat_a_tags j % 2 ^ s
    hat_c := fun j => h.hat_c j % 2 ^ s
    hat_c_tags := fun j => h.hat_c_tags j % 2 ^ s }

/-- Honest joint execution of `Truncer::truncate` by both parties: each party
sends `wide_a mod 2^s` and the mod-`2^s` image of its `hat` vectors, and runs
`truncate` on what the other sent. -/
def truncate_joint (k s : ℕ) (α0 α1 : ℤ) {n : ℕ} (in0 in1 : TruncIn n) :
    Option ((Fin n → ℤ) × (Fin n → ℤ) × (Fin n → ℤ) × (Fin n → ℤ)) ×
    Option ((Fin n → ℤ) × (Fin n → ℤ) × (Fin n → ℤ) × (Fin n → ℤ)) :=
  (truncate k s α0 0 in0 (fun j => in1.wide_a j % 2 ^ s)
     (comMsg s (hats k s α1 in1 fun j => in0.wide_a j % 2 ^ s)),
   truncate k s α1 1 in1 (fun j => in0.wide_a j % 2 ^ s)
     (comMsg s (hats k s α0 in0 fun j => in1.wide_a j % 2 ^ s)))

end Truncer

namespace CycRepr

/-!
Shallow embedding of the ring `R_q = ℤ_q[X]/Φ_M(X)` for prime `M = m + 1`, in
the coefficient convention of `PowerPoly` (`src/src/bgv/poly/power.rs`): a
vector `Fin m → R` stores the coefficient of the monomial `X^p`
(`p ∈ {1, …, m}`) at index `p % m`, and the monomial `X^0` is eliminated by
`1 = -(X + ⋯ + X^m)` (from `Φ_M = 1 + X + ⋯ + X^{M-1}`).

Ring multiplication in this convention is the reference multiplication loop of
the repository (`src/src/bgv/poly/crt.rs`, test `crt_poly_mul`, lines
346-376): convolve the coefficients cyclically modulo `X^{M} = 1` — the sum
over `(i, j)` of `lhs_i·rhs_j` at cyclic position `(i+j) % M`, with position
`0` accumulated separately as `first_coeff` — and then subtract `first_coeff`
from every stored coefficient.  `cycConv`/`toC`/`fromC` below factor that loop
into: lift the vector to a function on `ZMod (m+1)` (zero at position `0`),
cyclic convolution, and read back coefficients (subtracting the position-`0`
value).
-/

/-- Cyclic convolution on `ℤ/(m+1) → R`: position `k` receives
`∑_{i+j=k} f i · g j`. -/
def cycConv (m : ℕ) {R : Type} [CommRing R] (f g : ZMod (m + 1) → R) :
    ZMod (m + 1) → R :=
  fun k => ∑ i : ZMod (m + 1), f i * g (k - i)

/-- Lift a `PowerPoly` coefficient vector to cyclic positions: position
`c ≠ 0` holds the coefficient stored at index `c % m`; position `0` holds
nothing. -/
def toC (m : ℕ) {R : Type} [CommRing R] (x : Fin m → R) : ZMod (m + 1) → R :=
  fun c =>
    if h : c = 0 then 0
    else
      x ⟨c.val % m, Nat.mod_lt _ (by
        rcases Nat.eq_zero_or_pos m with hm | hm
        · exact absurd (by
            subst hm
            have hv : c.val < 1 := ZMod.val_lt c
            have hv0 : c.val = 0 := by omega
            exact (ZMod.val_eq_zero c).mp hv0) h
        · exact hm)⟩

/-- The cyclic position represented by coefficient index `j`: index `0`
stores `X^m` (`= X^{M-1}`), index `j ≥ 1` stores `X^j`. -/
def pw (m : ℕ) (j : Fin m) : ZMod (m + 1) :=
  if (j : ℕ) = 0 then (m : ZMod (m + 1)) else ((j : ℕ) : ZMod (m + 1))

/-- Read a cyclic-position function back into `PowerPoly` coefficients,
eliminating position `0` via `1 = -(X + ⋯ + X^m)` (the `first_coeff`
subtraction of the reference loop). -/
def fromC (m : ℕ) {R : Type} [CommRing R] (y : ZMod (m + 1) → R) : Fin m → R :=
  fun j => y (pw m j) - y 0

/-- The ring multiplication of `R_q` on `PowerPoly` coefficient vectors: the
reference multiplication of `src/src/bgv/poly/crt.rs` (test `crt_poly_mul`,
lines 346-376), which the CRT-domain multiplication implements. -/
def mulRepr (m : ℕ) {R : Type} [CommRing R] (x y : Fin m → R) : Fin m → R :=
  fromC m (cycConv m (toC m x) (toC m y))

/-- Total indexing into a coefficient vector (`coefficients[i]` in the
source, where every access is in bounds; out-of-range reads return `0`). -/
def idx (m : ℕ) {R : Type} [CommRing R] (x : Fin m → R) (i : ℕ) : R :=
  if h : i < m then x ⟨i, h⟩ else 0

/-- `PowerPoly::add_assign_rotated` (`src/src/bgv/poly/power.rs`, lines
214-227): add `X^rotate_right · rhs` into `self`.  For each source index `i`
(holding the coefficient of `X^{rhs_power}`, `rhs_power = M-1` when `i = 0`
and `i` otherwise), the target power is `(rhs_power + rotate_right) % M`;
power `0` subtracts the coefficient from every index, any other power `p`
adds it at index `p % (M-1)`. -/
def add_assign_rotated (m : ℕ) {R : Type} [CommRing R] (self rhs : Fin m → R)
    (rotate_right : ℕ) : Fin m → R :=
  fun j => self j + ∑ i : Fin m,
    (if ((if (i : ℕ) = 0 then m else (i : ℕ)) + rotate_right) % (m + 1) = 0 then
      -(rhs i)
    else if (j : ℕ) =
        ((if (i : ℕ) = 0 then m else (i : ℕ)) + rotate_right) % (m + 1) % m then
      rhs i
    else 0)

/-- The running accumulator of `PowerPoly::add_assign_slided`
(`src/src/bgv/poly/power.rs`, lines 244-256) after processing powers
`1, …, p`: at each power `sum += rhs[power % (M-1)]` and, unless
`power = length`, `sum -= rhs[(power + M - length) % M % (M-1)]`. -/
def slideAcc (m : ℕ) {R : Type} [CommRing R] (rhs : Fin m → R) (length : ℕ) :
    ℕ → R
  | 0 => 0
  | p + 1 =>
    slideAcc m rhs length p + idx m rhs ((p + 1) % m) -
      (if p + 1 = length then 0
       else idx m rhs ((p + 1 + (m + 1) - length) % (m + 1) % m))

/-- `PowerPoly::add_assign_slided` (`src/src/bgv/poly/power.rs`, lines
244-256): a no-op for `length = 0`; otherwise the loop over
`power ∈ {1, …, M-1}` writes index `power % (M-1)` exactly once (each index
`j` at the power `pwNat j = if j = 0 then M-1 else j`), adding the
accumulator value at that point of the loop. -/
def add_assign_slided (m : ℕ) {R : Type} [CommRing R] (self rhs : Fin m → R)
    (length : ℕ) : Fin m → R :=
  if length = 0 then self
  else fun j => self j + slideAcc m rhs length (if (j : ℕ) = 0 then m else (j : ℕ))

/-- `length` successive calls `add_assign_rotated(rhs, i)`, `i = 0, …,
length-1` (the reference loop of the repository's own test
`add_assign_slided`, `src/src/bgv/poly/power.rs` lines 356-375). -/
def iterated_rotations (m : ℕ) {R : Type} [CommRing R] (self rhs : Fin m → R) :
    ℕ → Fin m → R
  | 0 => self
  | l + 1 => add_assign_rotated m (iterated_rotations m self rhs l) rhs l

/-- The closed form of the quantity `add_assign_slided` adds: the sum of the
first `L` cyclic rotations of `rhs` (multiplication by `1 + X + ⋯ + X^{L-1}`
in `R_q`). -/
def slide (m : ℕ) {R : Type} [CommRing R] (rhs : Fin m → R) (L : ℕ) :
    Fin m → R :=
  fun j => ∑ r ∈ Finset.range L,
    (toC m rhs (pw m j - (r : ZMod (m + 1))) -
      toC m rhs (0 - (r : ZMod (m + 1))))

end CycRepr

namespace BgvModel

/-!
BGV encryption/decryption (`src/src/bgv/mod.rs`) over the power-basis
representation of `CycRepr`.  The CRT-basis values appearing in the source
are modelled by the power-basis coefficient vector of the ring element they
represent; the `power ↔ crt` conversions become the identity and the
CRT-domain multiplication becomes `CycRepr.mulRepr` (the repository's own
reference multiplication, asserted by its `crt_poly_mul` test).  Sampled
noise is passed in as explicit integer vectors.  Signed machine integers that
do not overflow their storage widths are modelled as integers.
-/

/-- The effect of `PowerPoly::clone_from_signed_ints`
(`src/src/bgv/poly/power.rs`, lines 39-47) followed by the lift into `R_q`:
each signed integer coefficient is reduced modulo `q`. -/
def reprCast (m q : ℕ) (v : Fin m → ℤ) : Fin m → ZMod q :=
  fun j => ((v j : ℤ) : ZMod q)

/-- `PublicKey::gen` (`src/src/bgv/mod.rs`, lines 548-567): `b = a·s + t·e`,
with `a` uniform, `s` the secret key, and `e` the centered-binomial noise;
`add_centered_binomial_scaled` of the zero polynomial yields the coefficients
`e·2^b = t·e`. -/
def public_key_b (m q t : ℕ) (a : Fin m → ZMod q) (s epk : Fin m → ℤ) :
    Fin m → ZMod q :=
  fun j => CycRepr.mulRepr m a (reprCast m q s) j + (((t : ℤ) * epk j : ℤ) : ZMod q)

/-- The `noised_plaintext` computed by `prepare`
(`src/src/bgv/mod.rs`, lines 293-311 and 431-454): the plaintext residue
(canonical value `< 2^b = t`) in the low `b` bits and the signed noise `e_0`
shifted above; `lhs | shifted` equals `mm + t·e_0` because the bit ranges are
disjoint. -/
def noised_plaintext (t : ℕ) {m : ℕ} (mm : Fin m → ℕ) (e0 : Fin m → ℤ) :
    Fin m → ℤ :=
  fun j => (mm j : ℤ) + (t : ℤ) * e0 j

/-- `c_0` of `PreparedPlaintext::encrypt_into` (`src/src/bgv/mod.rs`, lines
318-355): `pk.b · v + noised_plaintext`. -/
def encrypt_c0 (m q : ℕ) (pkb : Fin m → ZMod q) (np v : Fin m → ℤ) :
    Fin m → ZMod q :=
  fun j => CycRepr.mulRepr m pkb (reprCast m q v) j + ((np j : ℤ) : ZMod q)

/-- `c_1` of `PreparedPlaintext::encrypt_into`: `pk.a · v + e_1·2^b`
(`scaled_e_1 = e_1 << PlaintextResidue::BITS`, so `t·e_1`). -/
def encrypt_c1 (m q t : ℕ) (pka : Fin m → ZMod q) (e1 v : Fin m → ℤ) :
    Fin m → ZMod q :=
  fun j => CycRepr.mulRepr m pka (reprCast m q v) j + (((t : ℤ) * e1 j : ℤ) : ZMod q)

/-- `decrypt_into` (`src/src/bgv/mod.rs`, lines 513-532): compute
`c_1·s - c_0` in `R_q`, replace each coefficient by `noise_max - coeff` with
`noise_max = 2^(Bq-1)` (`Bq` the bit width of `q`), and keep the low `b` bits
of the canonical representative (`clone_from_power` is
`from_uint ∘ retrieve`). -/
def decrypt (m q Bq b : ℕ) (s : Fin m → ℤ) (c0 c1 : Fin m → ZMod q) :
    Fin m → ℕ :=
  fun j =>
    (((2 ^ (Bq - 1) : ℕ) : ZMod q) -
      (CycRepr.mulRepr m c1 (reprCast m q s) j - c0 j)).val % 2 ^ b

/-- The integer-level aggregated noise of one honest encryption:
`E = e_1·s - e_pk·v - e_0` in the power basis over `ℤ`. -/
def decrypt_noise (m : ℕ) (s epk e0 e1 v : Fin m → ℤ) : Fin m → ℤ :=
  fun j => CycRepr.mulRepr m e1 s j - CycRepr.mulRepr m epk v j - e0 j

end BgvModel


namespace Zkpopk

/-- `PreparedPlaintext` (`src/src/bgv/mod.rs`): the prover-side witness of one
ciphertext — `noised_plaintext` (plaintext with scaled noise), `e_1`, `v`.
The stored machine integers are modelled as integers (the widths are chosen
by the source so that the protocol arithmetic does not overflow). -/
structure Prepared (m : ℕ) where
  np : Fin m → ℤ
  e1 : Fin m → ℤ
  v : Fin m → ℤ
  deriving DecidableEq

/-- `PreCiphertext`: a pair of `PowerPoly`s over `R_q`
(`src/src/bgv/mod.rs`); compared componentwise by `PartialEq`. -/
structure PreCt (m q : ℕ) where
  c0 : Fin m → ZMod q
  c1 : Fin m → ZMod q
  deriving DecidableEq

/-- `PreparedPlaintext::add_assign_slided` (`src/src/bgv/mod.rs`, lines
357-381): the running-sum loop of `PowerPoly::add_assign_slided`, applied in
lockstep to the three component vectors. -/
def Prepared.add_slided (m : ℕ) (self rhs : Prepared m) (L : ℕ) : Prepared m where
  np := CycRepr.add_assign_slided m self.np rhs.np L
  e1 := CycRepr.add_assign_slided m self.e1 rhs.e1 L
  v := CycRepr.add_assign_slided m self.v rhs.v L

/-- `PreparedPlaintext::encrypt_into` (`src/src/bgv/mod.rs`, lines 317-355):
`c_0 = pk.b·v + noised_plaintext`, `c_1 = pk.a·v + t·e_1`. -/
def encryptPre (m q t : ℕ) (pka pkb : Fin m → ZMod q) (x : Prepared m) :
    PreCt m q where
  c0 := BgvModel.encrypt_c0 m q pkb x.np x.v
  c1 := BgvModel.encrypt_c1 m q t pka x.e1 x.v

/-- `zkpopk::check_bounds` applied to a `Prepared` (the bound check shared by
`Prover::respond` and `Verifier::verify`). -/
def boundsOk (W b M nc npr pinv m : ℕ) (x : Prepared m) : Bool :=
  check_bounds W b M nc npr pinv (List.ofFn x.np) (List.ofFn x.e1)
    (List.ofFn x.v)

/-- The inner loop of `Prover::respond` (`src/src/bgv/zkpopk/prover.rs`,
lines 88-93): starting from one pseudo-input, fold
`acc.add_assign_slided(input, challenge)` over the inputs, drawing one
challenge from the shared stream `χ` per input (`pos` is the stream
position). -/
def accumulate (m : ℕ) (χ : ℕ → ℕ) :
    Prepared m → List (Prepared m) → ℕ → Prepared m
  | acc, [], _ => acc
  | acc, input :: rest, pos =>
    accumulate m χ (Prepared.add_slided m acc input (χ pos)) rest (pos + 1)

/-- `Prover::respond` (`src/src/bgv/zkpopk/prover.rs`, lines 79-104): for
each pseudo-input accumulate the challenged inputs, abort (`none`) if
`check_bounds` rejects the accumulated value, otherwise emit it. -/
def respond (W b M nc npr pinv m : ℕ) (χ : ℕ → ℕ)
    (inputs : List (Prepared m)) :
    List (Prepared m) → ℕ → Option (List (Prepared m))
  | [], _ => some []
  | pi :: rest, pos =>
    if boundsOk W b M nc npr pinv m (accumulate m χ pi inputs pos) then
      Option.map (fun tail => accumulate m χ pi inputs pos :: tail)
        (respond W b M nc npr pinv m χ inputs rest (pos + inputs.length))
    else none

/-- The verifier's ciphertext accumulation (`src/src/bgv/zkpopk/verifier.rs`,
lines 74-82): `acc.c_0.add_assign_slided(&output.c_0, challenge)` and
likewise for `c_1`, over the same challenge stream. -/
def ctAccumulate (m q : ℕ) (χ : ℕ → ℕ) :
    PreCt m q → List (PreCt m q) → ℕ → PreCt m q
  | acc, [], _ => acc
  | acc, ct :: rest, pos =>
    ctAccumulate m q χ
      { c0 := CycRepr.add_assign_slided m acc.c0 ct.c0 (χ pos),
        c1 := CycRepr.add_assign_slided m acc.c1 ct.c1 (χ pos) } rest (pos + 1)

/-- The list of accumulated commitment ciphertexts, one per proof, with the
stream advancing by `cts.length` positions per proof. -/
def ctAccumList (m q : ℕ) (χ : ℕ → ℕ) (cts : List (PreCt m q)) :
    List (PreCt m q) → ℕ → List (PreCt m q)
  | [], _ => []
  | c :: rest, pos =>
    ctAccumulate m q χ c cts pos :: ctAccumList m q χ cts rest (pos + cts.length)

/-- `Verifier::verify` (`src/src/bgv/zkpopk/verifier.rs`, lines 47-94): check
the commitment and response lengths, `check_bounds` on every response entry,
then re-encrypt each response entry and compare with the corresponding
accumulated commitment ciphertext. -/
def verify (W b M nc npr pinv m q t numProofs : ℕ)
    (pka pkb : Fin m → ZMod q) (cts commitment : List (PreCt m q))
    (χ : ℕ → ℕ) (response : List (Prepared m)) : Bool :=
  (commitment.length == numProofs) &&
  (response.length == numProofs) &&
  (response.all fun r => boundsOk W b M nc npr pinv m r) &&
  ((response.zip (ctAccumList m q χ cts commitment 0)).all fun rc =>
    encryptPre m q t pka pkb rc.1 == rc.2)

end Zkpopk


namespace LowGear

/-!
The Low-Gear dealer and the VOLE phase of `get_beaver_triples` communicate
through BGV ciphertexts.  Honest execution is modelled by the exact plaintext
semantics of those channels (exact decryption is the overwhelming-probability
event; the SHE and packing layers are the subject of the other claims): a
ciphertext `Enc(x)·Cleartext(y) - Enc_drown(e)` decrypts to `x·y - e` slotwise,
and the dealer handshake ciphertext of the all-coefficients `-mac_key`
polynomial is the ring constant `+mac_key` (the all-ones coefficient vector
equals `-1` modulo `Φ_M`), so its product with a packed value vector is the
slotwise product with `mac_key`.  Machine residues are integers reduced by the
explicit moduli `2^k` (`K`), `2^(k+s)` (`KS`), `2^(k+2s)` (`KSS`).
-/

/-- One party's MAC tags from `LowGearDealer::authenticate`
(`src/src/low_gear_dealer/mod.rs`, lines 119-228): party `j` keeps
`e_own + b_own·α_own` from `send_mac_tags` and adds the decryption
`α_own·b_rem - e_rem` of the ciphertext received in `recv_mac_tags`
(both `KS` values). -/
def dealer_tags (k s : ℕ) {n : ℕ} (αown : ℤ) (bown brem eown erem : Fin n → ℤ) :
    Fin n → ℤ :=
  fun i => (eown i + bown i % 2 ^ k * (αown % 2 ^ s) +
    (αown % 2 ^ s * (brem i % 2 ^ k) - erem i)) % 2 ^ (k + s)

/-- One party's state entering `Truncer::truncate` in `get_beaver_triples`
(`src/src/low_gear_preproc/mod.rs`, lines 269-383): `wide_a` is the party's
`KS`-sized `a` share lifted to `KSS`; `wide_a_tags`, `wide_c`, `wide_c_tags`
start as `a·α_own`, `a·b_own`, `a·b_tags_own` and the three VOLE rounds add
the decrypted `a_own·x_rem - e_rem` plus the own mask `e_own`
(`x` being the diagonal-packed MAC key, `b`, and `b_tags`). -/
def party_inputs (k s : ℕ) {n : ℕ} (αown αrem : ℤ)
    (aown bown brem btagown btagrem : Fin n → ℤ)
    (e0own e0rem e1own e1rem e2own e2rem : Fin n → ℤ) : Truncer.TruncIn n where
  wide_a := fun i => aown i % 2 ^ (k + s)
  wide_a_tags := fun i => (aown i % 2 ^ (k + s) * (αown % 2 ^ s) +
    (aown i % 2 ^ (k + s) * (αrem % 2 ^ s) - e0rem i) + e0own i) % 2 ^ (k + 2 * s)
  b := fun i => bown i % 2 ^ k
  b_tags := btagown
  wide_c := fun i => (aown i % 2 ^ (k + s) * (bown i % 2 ^ k) +
    (aown i % 2 ^ (k + s) * (brem i % 2 ^ k) - e1rem i) + e1own i) % 2 ^ (k + 2 * s)
  wide_c_tags := fun i => (aown i % 2 ^ (k + s) * (btagown i % 2 ^ (k + s)) +
    (aown i % 2 ^ (k + s) * (btagrem i % 2 ^ (k + s)) - e2rem i) + e2own i) %
      2 ^ (k + 2 * s)

/-- Honest two-party execution of one `get_beaver_triples` batch slot-wise:
both parties derive their dealer tags, run the three VOLE rounds, and feed
the results into the joint truncation. -/
def beaver_joint (k s : ℕ) {n : ℕ} (α0 α1 : ℤ)
    (a0 a1 b0 b1 eb0 eb1 e00 e01 e10 e11 e20 e21 : Fin n → ℤ) :
    Option ((Fin n → ℤ) × (Fin n → ℤ) × (Fin n → ℤ) × (Fin n → ℤ)) ×
    Option ((Fin n → ℤ) × (Fin n → ℤ) × (Fin n → ℤ) × (Fin n → ℤ)) :=
  Truncer.truncate_joint k s α0 α1
    (party_inputs k s α0 α1 a0 b0 b1 (dealer_tags k s α0 b0 b1 eb0 eb1)
      (dealer_tags k s α1 b1 b0 eb1 eb0) e00 e01 e10 e11 e20 e21)
    (party_inputs k s α1 α0 a1 b1 b0 (dealer_tags k s α1 b1 b0 eb1 eb0)
      (dealer_tags k s α0 b0 b1 eb0 eb1) e01 e00 e11 e10 e21 e20)

end LowGear

/- ## Theorems -/

/-- Claim C9: `NativeResidue::invert` returns `TRUE` as its existence flag for
every element, including every even element, although an even element has no
multiplicative inverse modulo `2^BITS`. -/
theorem c9_invert_flag_always_true (W BITS x : ℕ) (hB : 1 ≤ BITS) :
    (NativeResidue.invert W BITS x).2 = true ∧
    (x % 2 = 0 → ¬ ∃ y, x * y % 2 ^ BITS = 1) := by
  refine ⟨rfl, ?_⟩
  rintro hx ⟨y, hy⟩
  have h2 : (2 : ℕ) ∣ 2 ^ BITS := dvd_pow_self 2 (Nat.one_le_iff_ne_zero.mp hB)
  have : x * y % 2 ^ BITS % 2 = 1 % 2 := by rw [hy]
  rw [Nat.mod_mod_of_dvd _ h2] at this
  have hxy : x * y % 2 = 0 := by
    have : x * y % 2 = x % 2 * (y % 2) % 2 := by
      rw [Nat.mul_mod]
    simp [this, hx]
  omega

/-- Witness for C9 at a concrete even input. -/
theorem c9_invert_flag_always_true_witness :
    (NativeResidue.invert 8 4 6).2 = true ∧
    (6 % 2 = 0 → ¬ ∃ y, 6 * y % 2 ^ 4 = 1) :=
  c9_invert_flag_always_true 8 4 6 (by decide)

/-- Claim C10: `NativeResidue` arithmetic is well defined modulo `2^BITS`:
`retrieve` lands below `2^BITS`; `==` compares the low `BITS` bits regardless
of the wrapping junk above; and `+`, `-`, `*` are congruences for `==`. -/
theorem c10_native_residue_well_defined (W BITS : ℕ) (hBW : BITS ≤ W)
    (x x' y y' : ℕ)
    (hx : NativeResidue.beq BITS x x' = true)
    (hy : NativeResidue.beq BITS y y' = true) :
    NativeResidue.retrieve BITS x < 2 ^ BITS ∧
    (NativeResidue.beq BITS x y = true ↔ x % 2 ^ BITS = y % 2 ^ BITS) ∧
    NativeResidue.beq BITS (NativeResidue.wrapping_add W x y)
      (NativeResidue.wrapping_add W x' y') = true ∧
    NativeResidue.beq BITS (NativeResidue.wrapping_sub W x y)
      (NativeResidue.wrapping_sub W x' y') = true ∧
    NativeResidue.beq BITS (NativeResidue.wrapping_mul W x y)
      (NativeResidue.wrapping_mul W x' y') = true := by
  have hdvd : 2 ^ BITS ∣ 2 ^ W := pow_dvd_pow 2 hBW
  have hx' : x % 2 ^ BITS = x' % 2 ^ BITS := by
    simpa [NativeResidue.beq, NativeResidue.retrieve] using hx
  have hy' : y % 2 ^ BITS = y' % 2 ^ BITS := by
    simpa [NativeResidue.beq, NativeResidue.retrieve] using hy
  refine ⟨Nat.mod_lt _ (Nat.pos_pow_of_pos _ (by norm_num)), ?_, ?_, ?_, ?_⟩
  · simp [NativeResidue.beq, NativeResidue.retrieve]
  · have : (x + y) % 2 ^ BITS = (x' + y') % 2 ^ BITS :=
      Nat.ModEq.add hx' hy'
    simp only [NativeResidue.beq, NativeResidue.retrieve, NativeResidue.wrapping_add,
      Nat.mod_mod_of_dvd _ hdvd, beq_iff_eq]
    exact this
  · have hyW : y % 2 ^ W % 2 ^ BITS = y' % 2 ^ W % 2 ^ BITS := by
      rw [Nat.mod_mod_of_dvd _ hdvd, Nat.mod_mod_of_dvd _ hdvd]; exact hy'
    have hsub : (2 ^ W - y % 2 ^ W) % 2 ^ BITS = (2 ^ W - y' % 2 ^ W) % 2 ^ BITS := by
      have h1 : y % 2 ^ W ≤ 2 ^ W := le_of_lt (Nat.mod_lt _ (Nat.pos_pow_of_pos _ (by norm_num)))
      have h2 : y' % 2 ^ W ≤ 2 ^ W := le_of_lt (Nat.mod_lt _ (Nat.pos_pow_of_pos _ (by norm_num)))
      have e1 : (2 ^ W - y % 2 ^ W) + y % 2 ^ W = 2 ^ W := Nat.sub_add_cancel h1
      have e2 : (2 ^ W - y' % 2 ^ W) + y' % 2 ^ W = 2 ^ W := Nat.sub_add_cancel h2
      have : (2 ^ W - y % 2 ^ W) + y % 2 ^ W ≡ (2 ^ W - y' % 2 ^ W) + y' % 2 ^ W [MOD 2 ^ BITS] := by
        rw [e1, e2]
      exact (Nat.ModEq.add_right_cancel hyW this)
    have : (x + (2 ^ W - y % 2 ^ W)) % 2 ^ BITS
        = (x' + (2 ^ W - y' % 2 ^ W)) % 2 ^ BITS := Nat.ModEq.add hx' hsub
    simp only [NativeResidue.beq, NativeResidue.retrieve, NativeResidue.wrapping_sub,
      Nat.mod_mod_of_dvd _ hdvd, beq_iff_eq]
    exact this
  · have : x * y % 2 ^ BITS = x' * y' % 2 ^ BITS := Nat.ModEq.mul hx' hy'
    simp only [NativeResidue.beq, NativeResidue.retrieve, NativeResidue.wrapping_mul,
      Nat.mod_mod_of_dvd _ hdvd, beq_iff_eq]
    exact this

/-- Witness for C10: width 8 residues at `BITS = 4`; `0x16` and `0x26` are
equal as residues, and the congruences evaluate at them. -/
theorem c10_native_residue_well_defined_witness :
    NativeResidue.retrieve 4 22 < 2 ^ 4 ∧
    (NativeResidue.beq 4 22 7 = true ↔ 22 % 2 ^ 4 = 7 % 2 ^ 4) ∧
    NativeResidue.beq 4 (NativeResidue.wrapping_add 8 22 7)
      (NativeResidue.wrapping_add 8 38 23) = true ∧
    NativeResidue.beq 4 (NativeResidue.wrapping_sub 8 22 7)
      (NativeResidue.wrapping_sub 8 38 23) = true ∧
    NativeResidue.beq 4 (NativeResidue.wrapping_mul 8 22 7)
      (NativeResidue.wrapping_mul 8 38 23) = true :=
  c10_native_residue_well_defined 8 4 (by decide) 22 38 7 23 (by decide) (by decide)

/-- Claim C4 (code bug): adding a public constant to a shared value leaves
both parties' tags unchanged (`Share::from` sets `tag = KS::ZERO`, marked
`// TODO: Correct tag` in `src/src/interface.rs` line 113), so the MAC
invariant `tag₀+tag₁ = α·(val₀+val₁)` is broken by `+ constant`.  Concretely,
with `k = s = 1`, combined MAC key `α = 1`, shares of `x = 0` all zero and
constant `c = 1`: the value shares now sum to `1`, but the tag shares still
sum to `0 ≠ α·(x+c) = 1`. -/
theorem c4_add_constant_breaks_mac :
    Share.macInvariant 2 1 { val := 0, tag := 0 } { val := 0, tag := 0 } 0 ∧
    (Share.addK 1 2 0 { val := 0, tag := 0 } 1).val +
      (Share.addK 1 2 1 { val := 0, tag := 0 } 1).val = 1 ∧
    ¬ Share.macInvariant 2 1 (Share.addK 1 2 0 { val := 0, tag := 0 } 1)
        (Share.addK 1 2 1 { val := 0, tag := 0 } 1) 1 := by
  unfold Share.macInvariant
  refine ⟨by decide, by decide, ?_⟩
  intro h
  have := h.2
  revert this
  decide

/-- Claim C7, counterexample to the claim as stated: the claim says the bound
check accepts exactly when every `e_1` coefficient has absolute value at most
`20·B` (and similarly for the other two vectors).  With `M = 3`,
`num_ciphertexts = num_proofs = inv_fail_prob = 1` we get `B = 12`; the input
with `noised_plaintext = [0]`, `e_1 = [240] = [20·B]`, `v = [0]` satisfies the
claimed absolute-value bounds, yet `check_bounds` rejects it (the code tests
`val >= 20 * bound`). -/
theorem c7_check_bounds_counterexample :
    zkpopkBound 3 1 1 1 = 12 ∧
    (toSigned 19 (0 / 2 ^ 1)).natAbs ≤ 21 * 12 ∧
    (240 : ℤ).natAbs ≤ 20 * 12 ∧
    (0 : ℤ).natAbs ≤ 12 ∧
    check_bounds 20 1 3 1 1 1 [0] [240] [0] = false := by
  refine ⟨by decide, by decide, by decide, by decide, ?_⟩
  decide

/-- If `0 ≤ r < c`, then `x * c + r < y * c` iff `x < y`. -/
theorem intBlockLt (x y r c : ℤ) (hc : 0 < c) (hr : 0 ≤ r) (hrc : r < c) :
    x * c + r < y * c ↔ x < y := by
  constructor
  · intro hlt
    by_contra hxy
    push_neg at hxy
    nlinarith
  · intro hlt
    nlinarith

/-- Block decomposition of `emod`: reducing `a * c + r` modulo `m * c` reduces
the block index `a` modulo `m` when `0 ≤ r < c`. -/
theorem emodBlock (a r m c : ℤ) (hm : 0 < m) (hc : 0 < c) (hr : 0 ≤ r)
    (hrc : r < c) : (a * c + r) % (m * c) = a % m * c + r := by
  have h1 : a * c % (m * c) = a % m * c := by
    rw [mul_comm a c, mul_comm m c, Int.mul_emod_mul_of_pos _ _ hc, mul_comm]
  have ham0 : 0 ≤ a % m := Int.emod_nonneg a (ne_of_gt hm)
  have ham1 : a % m < m := Int.emod_lt_of_pos a hm
  have h2 : 0 ≤ a % m * c + r := by positivity
  have h3 : a % m * c + r < m * c := by nlinarith
  have hrm : r % (m * c) = r := Int.emod_eq_of_lt hr (by nlinarith)
  rw [Int.add_emod, h1, hrm, Int.emod_eq_of_lt h2 h3]

/-- Specification of `toSigned` on canonical inputs: it is congruent to the
input modulo `2^N` and lies in `[-2^(N-1), 2^(N-1))`. -/
theorem toSignedSpec (N : ℕ) (h : ℤ) (h0 : 0 ≤ h) (h1 : h < 2 ^ N)
    (hN : 1 ≤ N) :
    toSigned N h % 2 ^ N = h % 2 ^ N ∧ -(2 ^ (N - 1)) ≤ toSigned N h ∧
      toSigned N h < 2 ^ (N - 1) := by
  have hP : (2 : ℤ) ^ N = 2 * 2 ^ (N - 1) := by
    rw [← pow_succ']
    congr 1
    omega
  have hm : h % 2 ^ N = h := Int.emod_eq_of_lt h0 h1
  unfold toSigned
  rw [hm]
  split
  · next hc => exact ⟨by rw [hm], by linarith, hc⟩
  · next hc =>
    push_neg at hc
    refine ⟨?_, by linarith, by linarith⟩
    rw [Int.sub_emod, Int.emod_self, sub_zero, Int.emod_emod_of_dvd _ dvd_rfl, hm]

/-- Per-coefficient characterization of the `noised_plaintext` bound check:
for a canonical `W`-bit value `u`, the wrapping test
`(u + 21·B·2^b) mod 2^W < 42·B·2^b` holds iff the two's-complement value of
the high `W - b` bits of `u` lies in `[-21·B, 21·B)`. -/
theorem npCheckIff (W b : ℕ) (Bz u : ℤ) (hbW : b < W) (hB : 0 < Bz)
    (hW : 42 * Bz * 2 ^ b < 2 ^ W) (hu0 : 0 ≤ u) (hu1 : u < 2 ^ W) :
    ((u + 21 * Bz * 2 ^ b) % 2 ^ W < 42 * Bz * 2 ^ b) ↔
      (-(21 * Bz) ≤ toSigned (W - b) (u / 2 ^ b) ∧
        toSigned (W - b) (u / 2 ^ b) < 21 * Bz) := by
  set N := W - b with hN
  have hWsplit : (2 : ℤ) ^ W = 2 ^ N * 2 ^ b := by
    rw [← pow_add]
    congr 1
    omega
  set h := u / 2 ^ b with hh
  set low := u % 2 ^ b with hlow
  have h2b : (0 : ℤ) < 2 ^ b := by positivity
  have h2N : (0 : ℤ) < 2 ^ N := by positivity
  have hlow0 : 0 ≤ low := Int.emod_nonneg u (ne_of_gt h2b)
  have hlowc : low < 2 ^ b := Int.emod_lt_of_pos u h2b
  have hu : u = h * 2 ^ b + low := by
    rw [hh, hlow, mul_comm]
    exact (Int.ediv_add_emod u _).symm
  have hh0 : 0 ≤ h := Int.ediv_nonneg hu0 (le_of_lt h2b)
  have hhlt : h < 2 ^ N := by
    by_contra hcon
    push_neg at hcon
    have : (2 : ℤ) ^ N * 2 ^ b ≤ h * 2 ^ b :=
      mul_le_mul_of_nonneg_right hcon (le_of_lt h2b)
    nlinarith
  have hN1 : 1 ≤ N := by omega
  have h42 : 42 * Bz < 2 ^ N := by nlinarith
  obtain ⟨hmod, hlo, hhi⟩ := toSignedSpec N h hh0 hhlt hN1
  set σ := toSigned N h with hσ
  have hP : (2 : ℤ) ^ N = 2 * 2 ^ (N - 1) := by
    rw [← pow_succ']
    congr 1
    omega
  have key : (u + 21 * Bz * 2 ^ b) % 2 ^ W = (h + 21 * Bz) % 2 ^ N * 2 ^ b + low := by
    rw [hWsplit]
    have harr : u + 21 * Bz * 2 ^ b = (h + 21 * Bz) * 2 ^ b + low := by
      rw [hu]; ring
    rw [harr, emodBlock _ _ _ _ h2N h2b hlow0 hlowc]
  have h42e : 42 * Bz * 2 ^ b = 42 * Bz * 2 ^ b := rfl
  rw [key]
  rw [intBlockLt _ _ _ _ h2b hlow0 hlowc]
  have hcong : (h + 21 * Bz) % 2 ^ N = (σ + 21 * Bz) % 2 ^ N := by
    conv_lhs => rw [Int.add_emod, ← hmod, ← Int.add_emod]
  rw [hcong]
  constructor
  · intro hr
    by_cases hc : 0 ≤ σ + 21 * Bz
    · have hlt : σ + 21 * Bz < 2 ^ N := by linarith
      rw [Int.emod_eq_of_lt hc hlt] at hr
      constructor <;> linarith
    · push_neg at hc
      exfalso
      have h1 : 0 ≤ σ + 21 * Bz + 2 ^ N := by linarith
      have h2 : σ + 21 * Bz + 2 ^ N < 2 ^ N := by linarith
      have hrew : (σ + 21 * Bz) % 2 ^ N = σ + 21 * Bz + 2 ^ N := by
        rw [show (σ + 21 * Bz) % 2 ^ N = (σ + 21 * Bz + 2 ^ N * 1) % 2 ^ N from
          (Int.add_mul_emod_self_left _ _ _).symm]
        rw [mul_one, Int.emod_eq_of_lt h1 h2]
      rw [hrew] at hr
      linarith
  · intro ⟨hl, hr⟩
    rw [Int.emod_eq_of_lt (by linarith) (by linarith)]
    linarith

/-- Claim C7 (amended): the bound check used by the prover's abort decision
and the verifier accepts a `PreparedPlaintext` exactly when, with
`B = 3·(M−1)²·N_ct·N_proof·P_inv`, every signed high-bits (noise) coefficient
of `noised_plaintext` lies in the half-open interval `[-21·B, 21·B)`, every
`e_1` coefficient lies in `[-20·B, 20·B)` and every `v` coefficient lies in
`[-B, B)`. -/
theorem c7_check_bounds_iff (W b M nc npr pinv : ℕ) (np e1 v : List ℤ)
    (hbW : b < W)
    (hB : 0 < zkpopkBound M nc npr pinv)
    (hW : 42 * zkpopkBound M nc npr pinv * 2 ^ b < 2 ^ W)
    (hnp : ∀ u ∈ np, 0 ≤ u ∧ u < 2 ^ W) :
    check_bounds W b M nc npr pinv np e1 v = true ↔
      (∀ u ∈ np, -(21 * zkpopkBound M nc npr pinv) ≤ toSigned (W - b) (u / 2 ^ b) ∧
        toSigned (W - b) (u / 2 ^ b) < 21 * zkpopkBound M nc npr pinv) ∧
      (∀ x ∈ e1, -(20 * zkpopkBound M nc npr pinv) ≤ x ∧
        x < 20 * zkpopkBound M nc npr pinv) ∧
      (∀ x ∈ v, -(zkpopkBound M nc npr pinv) ≤ x ∧ x < zkpopkBound M nc npr pinv) := by
  unfold check_bounds
  simp only [List.all_eq_true, Bool.and_eq_true, decide_eq_true_eq, Bool.not_eq_true',
    decide_eq_false_iff_not]
  set Bz := zkpopkBound M nc npr pinv with hBz
  have h2W : (0 : ℤ) < 2 ^ W := by positivity
  have h2b : (0 : ℤ) < 2 ^ b := by positivity
  have h2b1 : (1 : ℤ) ≤ 2 ^ b := by simpa using Int.add_one_le_of_lt h2b
  have e1m : 21 * Bz % 2 ^ W = 21 * Bz :=
    Int.emod_eq_of_lt (by linarith) (by nlinarith)
  have e2m : 21 * Bz * 2 ^ b % 2 ^ W = 21 * Bz * 2 ^ b :=
    Int.emod_eq_of_lt (by nlinarith) (by nlinarith)
  have e3m : 21 * Bz * 2 ^ b * 2 % 2 ^ W = 42 * Bz * 2 ^ b := by
    rw [show 21 * Bz * 2 ^ b * 2 = 42 * Bz * 2 ^ b by ring]
    exact Int.emod_eq_of_lt (by nlinarith) hW
  simp only [e1m, e2m, e3m]
  constructor
  · rintro ⟨⟨hnp1, he1⟩, hv1⟩
    refine ⟨fun u hu => ?_, fun x hx => ?_, fun x hx => ?_⟩
    · exact (npCheckIff W b Bz u hbW hB hW (hnp u hu).1 (hnp u hu).2).mp (hnp1 u hu)
    · have hx1 := he1 x hx
      push_neg at hx1
      omega
    · have hx1 := hv1 x hx
      push_neg at hx1
      omega
  · rintro ⟨hnp1, he1, hv1⟩
    refine ⟨⟨fun u hu => ?_, fun x hx => ?_⟩, fun x hx => ?_⟩
    · exact (npCheckIff W b Bz u hbW hB hW (hnp u hu).1 (hnp u hu).2).mpr (hnp1 u hu)
    · have hx1 := he1 x hx
      push_neg
      omega
    · have hx1 := hv1 x hx
      push_neg
      omega

/-- Witness for the amended C7. -/
theorem c7_check_bounds_iff_witness :
    check_bounds 20 1 3 1 1 1 [0] [0] [0] = true ↔
      (∀ u ∈ [(0 : ℤ)], -(21 * zkpopkBound 3 1 1 1) ≤ toSigned (20 - 1) (u / 2 ^ 1) ∧
        toSigned (20 - 1) (u / 2 ^ 1) < 21 * zkpopkBound 3 1 1 1) ∧
      (∀ x ∈ [(0 : ℤ)], -(20 * zkpopkBound 3 1 1 1) ≤ x ∧
        x < 20 * zkpopkBound 3 1 1 1) ∧
      (∀ x ∈ [(0 : ℤ)], -(zkpopkBound 3 1 1 1) ≤ x ∧ x < zkpopkBound 3 1 1 1) :=
  c7_check_bounds_iff 20 1 3 1 1 1 [0] [0] [0] (by decide) (by decide) (by decide)
    (by decide)

/-- Collapsing an inner `emod` on the right summand. -/
theorem add_emod_right_collapse (x y n : ℤ) : (x + y % n) % n = (x + y) % n := by
  conv_rhs => rw [Int.add_emod]
  rw [Int.add_emod x (y % n) n, Int.emod_emod_of_dvd _ dvd_rfl]

/-- `Truncer.truncate` for party 0, characterized with the cross-sum checks
written modulo `2^s` only. -/
theorem truncate0_spec (k s : ℕ) (α : ℤ) {n : ℕ} (inp : Truncer.TruncIn n)
    (ra : Fin n → ℤ) (rcom : Truncer.ComVecs n) :
    Truncer.truncate k s α 0 inp ra rcom =
      (if ∀ j,
          ((Truncer.hats k s α inp ra).hat_a_tags j + rcom.hat_a_tags j) % 2 ^ s = 0 ∧
          ((Truncer.hats k s α inp ra).hat_c j + rcom.hat_c j) % 2 ^ s = 0 ∧
          ((Truncer.hats k s α inp ra).hat_c_tags j + rcom.hat_c_tags j) % 2 ^ s = 0 then
        some (fun j => Truncer.shift k s (inp.wide_a j),
          fun j => Truncer.shift k s
            (((Truncer.hats k s α inp ra).hat_a_tags j + rcom.hat_a_tags j % 2 ^ s) %
              2 ^ (k + 2 * s)),
          fun j => Truncer.shift k s
            (((Truncer.hats k s α inp ra).hat_c j + rcom.hat_c j % 2 ^ s) % 2 ^ (k + 2 * s)),
          fun j => Truncer.shift k s
            (((Truncer.hats k s α inp ra).hat_c_tags j + rcom.hat_c_tags j % 2 ^ s) %
              2 ^ (k + 2 * s)))
      else none) := by
  have hdvd : (2 : ℤ) ^ s ∣ 2 ^ (k + 2 * s) := pow_dvd_pow 2 (by omega)
  unfold Truncer.truncate
  rw [if_pos rfl]
  refine if_congr ?_ rfl rfl
  have key : ∀ x y : ℤ, (x + y % 2 ^ s) % 2 ^ (k + 2 * s) % 2 ^ s = (x + y) % 2 ^ s := by
    intro x y
    rw [Int.emod_emod_of_dvd _ hdvd, add_emod_right_collapse]
  constructor
  · intro h j
    obtain ⟨h1, h2, h3⟩ := h j
    rw [key] at h1 h2 h3
    exact ⟨h1, h2, h3⟩
  · intro h j
    obtain ⟨h1, h2, h3⟩ := h j
    rw [key, key, key]
    exact ⟨h1, h2, h3⟩

/-- `Truncer.truncate` for party 1, characterized with the cross-sum checks
written modulo `2^s` only. -/
theorem truncate1_spec (k s : ℕ) (α : ℤ) {n : ℕ} (inp : Truncer.TruncIn n)
    (ra : Fin n → ℤ) (rcom : Truncer.ComVecs n) :
    Truncer.truncate k s α 1 inp ra rcom =
      (if ∀ j,
          ((Truncer.hats k s α inp ra).hat_a_tags j + rcom.hat_a_tags j) % 2 ^ s = 0 ∧
          ((Truncer.hats k s α inp ra).hat_c j + rcom.hat_c j) % 2 ^ s = 0 ∧
          ((Truncer.hats k s α inp ra).hat_c_tags j + rcom.hat_c_tags j) % 2 ^ s = 0 then
        some (fun j => Truncer.shift k s (inp.wide_a j),
          fun j => Truncer.shift k s ((Truncer.hats k s α inp ra).hat_a_tags j),
          fun j => Truncer.shift k s ((Truncer.hats k s α inp ra).hat_c j),
          fun j => Truncer.shift k s ((Truncer.hats k s α inp ra).hat_c_tags j))
      else none) := by
  have hdvd : (2 : ℤ) ^ s ∣ 2 ^ (k + s) := pow_dvd_pow 2 (by omega)
  unfold Truncer.truncate
  rw [if_neg (by norm_num)]
  refine if_congr ?_ rfl rfl
  have key : ∀ x y : ℤ,
      (x % 2 ^ s + y % 2 ^ s) % 2 ^ (k + s) % 2 ^ s = (x + y) % 2 ^ s := by
    intro x y
    rw [Int.emod_emod_of_dvd _ hdvd, add_emod_right_collapse, Int.add_comm,
      add_emod_right_collapse, Int.add_comm]
  constructor
  · intro h j
    obtain ⟨h1, h2, h3⟩ := h j
    rw [key] at h1 h2 h3
    exact ⟨h1, h2, h3⟩
  · intro h j
    obtain ⟨h1, h2, h3⟩ := h j
    rw [key, key, key]
    exact ⟨h1, h2, h3⟩

/-- Claim C5, counterexample to the claim as stated: the claim says that on a
consistent input the call returns the right-shifts of
`(wide_a, hat_a_tags, hat_c, hat_c_tags)`.  With `k = s = 1`, one index,
`mac_key = 0` and both parties holding `wide_a = 0`, `wide_a_tags = 1` (all
other inputs zero): the exchanged low bits sum to `1 + 1 ≡ 0 (mod 2)`, both
checks pass, and `hat_a_tags = wide_a_tags = 1` on both sides.  The claimed
output for `a_tags` is `shift 1 = 0`, but party 0 (which first adds the
remote's low bit into its own vector, `truncer.rs` line 124) returns
`shift (1 + 1) = 1`. -/
theorem c5_truncate_counterexample :
    (Truncer.truncate_joint 1 1 0 0
        ({ wide_a := fun _ => 0, wide_a_tags := fun _ => 1, b := fun _ => 0,
           b_tags := fun _ => 0, wide_c := fun _ => 0, wide_c_tags := fun _ => 0 } :
          Truncer.TruncIn 1)
        ({ wide_a := fun _ => 0, wide_a_tags := fun _ => 1, b := fun _ => 0,
           b_tags := fun _ => 0, wide_c := fun _ => 0, wide_c_tags := fun _ => 0 } :
          Truncer.TruncIn 1)).1 =
      some (fun _ => 0, fun _ => 1, fun _ => 0, fun _ => 0) ∧
    Truncer.shift 1 1
      ((Truncer.hats 1 1 0
          { wide_a := fun _ => 0, wide_a_tags := fun _ => 1, b := fun _ => 0,
            b_tags := fun _ => 0, wide_c := fun _ => 0, wide_c_tags := fun _ => 0 }
          fun _ => 0).hat_a_tags (0 : Fin 1)) = 0 ∧
    (1 : ℤ) ≠ 0 := by
  refine ⟨?_, by decide, by decide⟩
  decide

/-- Claim C5 (amended): in a joint execution of `Truncer::truncate`, when for
every index each of the three cross-party sums of `hat_a_tags`, `hat_c`,
`hat_c_tags` vanishes modulo `2^s`, both calls return: `a` is the right-shift
of `wide_a` for both parties; party 1 returns the right-shifts of its own
`hat` vectors, while party 0 first adds the remote's transmitted low `s` bits
into each of its three `hat` vectors and returns the right-shifts of the
updated vectors.  If some cross-party sum is nonzero modulo `2^s`, both
parties' checks fail and both calls abort without returning a result. -/
theorem c5_truncate_amended (k s : ℕ) {n : ℕ} (α0 α1 : ℤ)
    (in0 in1 : Truncer.TruncIn n) :
    (let h0 := Truncer.hats k s α0 in0 fun j => in1.wide_a j % 2 ^ s
     let h1 := Truncer.hats k s α1 in1 fun j => in0.wide_a j % 2 ^ s
     ((∀ j, (h0.hat_a_tags j + h1.hat_a_tags j) % 2 ^ s = 0 ∧
            (h0.hat_c j + h1.hat_c j) % 2 ^ s = 0 ∧
            (h0.hat_c_tags j + h1.hat_c_tags j) % 2 ^ s = 0) →
        Truncer.truncate_joint k s α0 α1 in0 in1 =
          (some (fun j => Truncer.shift k s (in0.wide_a j),
             fun j => Truncer.shift k s
               ((h0.hat_a_tags j + h1.hat_a_tags j % 2 ^ s) % 2 ^ (k + 2 * s)),
             fun j => Truncer.shift k s
               ((h0.hat_c j + h1.hat_c j % 2 ^ s) % 2 ^ (k + 2 * s)),
             fun j => Truncer.shift k s
               ((h0.hat_c_tags j + h1.hat_c_tags j % 2 ^ s) % 2 ^ (k + 2 * s))),
           some (fun j => Truncer.shift k s (in1.wide_a j),
             fun j => Truncer.shift k s (h1.hat_a_tags j),
             fun j => Truncer.shift k s (h1.hat_c j),
             fun j => Truncer.shift k s (h1.hat_c_tags j)))) ∧
      ((¬ ∀ j, (h0.hat_a_tags j + h1.hat_a_tags j) % 2 ^ s = 0 ∧
               (h0.hat_c j + h1.hat_c j) % 2 ^ s = 0 ∧
               (h0.hat_c_tags j + h1.hat_c_tags j) % 2 ^ s = 0) →
        Truncer.truncate_joint k s α0 α1 in0 in1 = (none, none))) := by
  intro h0 h1
  have hcomm : ∀ x y : ℤ, (x + y % 2 ^ s) % 2 ^ s = (x + y) % 2 ^ s :=
    fun x y => add_emod_right_collapse x y _
  have hcomm2 : ∀ x y : ℤ, (x % 2 ^ s + y) % 2 ^ s = (x + y) % 2 ^ s := by
    intro x y
    rw [Int.add_comm, add_emod_right_collapse, Int.add_comm]
  have hcond0iff :
      (∀ j, ((Truncer.hats k s α0 in0 fun j => in1.wide_a j % 2 ^ s).hat_a_tags j +
          (Truncer.comMsg s
            (Truncer.hats k s α1 in1 fun j => in0.wide_a j % 2 ^ s)).hat_a_tags j) % 2 ^ s = 0 ∧
        ((Truncer.hats k s α0 in0 fun j => in1.wide_a j % 2 ^ s).hat_c j +
          (Truncer.comMsg s
            (Truncer.hats k s α1 in1 fun j => in0.wide_a j % 2 ^ s)).hat_c j) % 2 ^ s = 0 ∧
        ((Truncer.hats k s α0 in0 fun j => in1.wide_a j % 2 ^ s).hat_c_tags j +
          (Truncer.comMsg s
            (Truncer.hats k s α1 in1 fun j => in0.wide_a j % 2 ^ s)).hat_c_tags j) % 2 ^ s = 0) ↔
      (∀ j, (h0.hat_a_tags j + h1.hat_a_tags j) % 2 ^ s = 0 ∧
            (h0.hat_c j + h1.hat_c j) % 2 ^ s = 0 ∧
            (h0.hat_c_tags j + h1.hat_c_tags j) % 2 ^ s = 0) := by
    apply forall_congr'
    intro j
    unfold Truncer.comMsg
    rw [hcomm, hcomm, hcomm]
  have hcond1iff :
      (∀ j, ((Truncer.hats k s α1 in1 fun j => in0.wide_a j % 2 ^ s).hat_a_tags j +
          (Truncer.comMsg s
            (Truncer.hats k s α0 in0 fun j => in1.wide_a j % 2 ^ s)).hat_a_tags j) % 2 ^ s = 0 ∧
        ((Truncer.hats k s α1 in1 fun j => in0.wide_a j % 2 ^ s).hat_c j +
          (Truncer.comMsg s
            (Truncer.hats k s α0 in0 fun j => in1.wide_a j % 2 ^ s)).hat_c j) % 2 ^ s = 0 ∧
        ((Truncer.hats k s α1 in1 fun j => in0.wide_a j % 2 ^ s).hat_c_tags j +
          (Truncer.comMsg s
            (Truncer.hats k s α0 in0 fun j => in1.wide_a j % 2 ^ s)).hat_c_tags j) % 2 ^ s = 0) ↔
      (∀ j, (h0.hat_a_tags j + h1.hat_a_tags j) % 2 ^ s = 0 ∧
            (h0.hat_c j + h1.hat_c j) % 2 ^ s = 0 ∧
            (h0.hat_c_tags j + h1.hat_c_tags j) % 2 ^ s = 0) := by
    apply forall_congr'
    intro j
    unfold Truncer.comMsg
    rw [hcomm, hcomm, hcomm, Int.add_comm (h1.hat_a_tags j), Int.add_comm (h1.hat_c j),
      Int.add_comm (h1.hat_c_tags j)]
  constructor
  · intro hC
    unfold Truncer.truncate_joint
    rw [truncate0_spec, truncate1_spec, if_pos (hcond0iff.mpr hC), if_pos (hcond1iff.mpr hC)]
    have hself : ∀ x : ℤ, x % 2 ^ s % 2 ^ s = x % 2 ^ s :=
      fun x => Int.emod_emod_of_dvd x dvd_rfl
    simp only [Truncer.comMsg, hself]
  · intro hC
    unfold Truncer.truncate_joint
    rw [truncate0_spec, truncate1_spec, if_neg (fun h => hC (hcond0iff.mp h)),
      if_neg (fun h => hC (hcond1iff.mp h))]

namespace CycRepr

theorem toC_zero (m : ℕ) {R : Type} [CommRing R] (x : Fin m → R) :
    toC m x 0 = 0 := by
  unfold toC
  simp

theorem pw_val (m : ℕ) (j : Fin m) :
    (pw m j).val = if (j : ℕ) = 0 then m else (j : ℕ) := by
  have hj := j.isLt
  unfold pw
  split
  · rw [ZMod.val_natCast, Nat.mod_eq_of_lt (by omega)]
  · rw [ZMod.val_natCast, Nat.mod_eq_of_lt (by omega)]

theorem pw_ne_zero (m : ℕ) (j : Fin m) : pw m j ≠ 0 := by
  intro h
  have hv := pw_val m j
  rw [h, ZMod.val_zero] at hv
  have hj := j.isLt
  split at hv <;> omega

theorem val_inj (m : ℕ) (a b : ZMod (m + 1)) (h : a.val = b.val) : a = b := by
  have ha := ZMod.natCast_rightInverse a
  have hb := ZMod.natCast_rightInverse b
  rw [← ha, ← hb, h]

theorem toC_pw (m : ℕ) {R : Type} [CommRing R] (x : Fin m → R) (j : Fin m) :
    toC m x (pw m j) = x j := by
  have hj := j.isLt
  unfold toC
  rw [dif_neg (pw_ne_zero m j)]
  congr 1
  apply Fin.ext
  show (pw m j).val % m = (j : ℕ)
  rw [pw_val]
  by_cases h0 : (j : ℕ) = 0
  · simp [h0, Nat.mod_self]
  · simp [h0, Nat.mod_eq_of_lt hj]

theorem toC_natCast (m : ℕ) {R : Type} [CommRing R] (x : Fin m → R) (v : ℕ)
    (h : v % (m + 1) ≠ 0) :
    toC m x ((v : ℕ) : ZMod (m + 1)) = idx m x (v % (m + 1) % m) := by
  have hval : ((v : ℕ) : ZMod (m + 1)).val = v % (m + 1) := ZMod.val_natCast v
  have hne : ((v : ℕ) : ZMod (m + 1)) ≠ 0 := by
    intro h0
    rw [h0, ZMod.val_zero] at hval
    exact h hval.symm
  have hlt : v % (m + 1) < m + 1 := Nat.mod_lt _ (by omega)
  have hm : 0 < m := by omega
  unfold toC idx
  rw [dif_neg hne, dif_pos (Nat.mod_lt _ hm)]
  congr 1

theorem pw_natCast_iff (m : ℕ) (j : Fin m) (v : ℕ) (h : v % (m + 1) ≠ 0) :
    pw m j = ((v : ℕ) : ZMod (m + 1)) ↔ (j : ℕ) = v % (m + 1) % m := by
  have hval : ((v : ℕ) : ZMod (m + 1)).val = v % (m + 1) := ZMod.val_natCast v
  have hlt : v % (m + 1) < m + 1 := Nat.mod_lt _ (by omega)
  have hj := j.isLt
  constructor
  · intro he
    have hv : (pw m j).val = v % (m + 1) := by rw [he, hval]
    rw [pw_val] at hv
    split at hv
    · next h0 => rw [h0, ← hv, Nat.mod_self]
    · rw [← hv, Nat.mod_eq_of_lt hj]
  · intro he
    apply val_inj
    rw [pw_val, hval]
    rcases Nat.lt_or_ge (v % (m + 1)) m with hcase | hcase
    · rw [Nat.mod_eq_of_lt hcase] at he
      rw [if_neg (by omega), he]
    · have hmeq : v % (m + 1) = m := by omega
      rw [hmeq] at he
      rw [Nat.mod_self] at he
      rw [hmeq, if_pos he]

/-- Summing a function of cyclic positions over coefficient indices equals
summing over all positions, provided position `0` contributes nothing. -/
theorem sum_pw (m : ℕ) {R : Type} [CommRing R] (F : ZMod (m + 1) → R)
    (hF0 : F 0 = 0) :
    ∑ i : Fin m, F (pw m i) = ∑ c : ZMod (m + 1), F c := by
  classical
  rw [show (Finset.univ : Finset (ZMod (m + 1))) =
      insert 0 (Finset.univ.erase 0) from (Finset.insert_erase (Finset.mem_univ 0)).symm]
  rw [Finset.sum_insert (Finset.not_mem_erase _ _), hF0, zero_add]
  apply Finset.sum_bij (fun (i : Fin m) _ => pw m i)
  · intro i _
    exact Finset.mem_erase.mpr ⟨pw_ne_zero m i, Finset.mem_univ _⟩
  · intro i _ j _ hij
    have hi := i.isLt
    have hj := j.isLt
    have : (pw m i).val = (pw m j).val := by rw [hij]
    rw [pw_val, pw_val] at this
    apply Fin.ext
    split at this <;> split at this <;> omega
  · intro c hc
    obtain ⟨hc0, -⟩ := Finset.mem_erase.mp hc
    have hcv : c.val < m + 1 := ZMod.val_lt c
    have hcv0 : c.val ≠ 0 := fun h => hc0 ((ZMod.val_eq_zero c).mp h)
    have hm : 0 < m := by omega
    refine ⟨⟨c.val % m, Nat.mod_lt _ hm⟩, Finset.mem_univ _, ?_⟩
    apply (val_inj m _ _ ?_).symm
    rw [pw_val]
    show c.val = if c.val % m = 0 then m else c.val % m
    rcases Nat.lt_or_ge c.val m with hlt | hge
    · rw [if_neg ?_, Nat.mod_eq_of_lt hlt]
      rw [Nat.mod_eq_of_lt hlt]
      exact hcv0
    · have : c.val = m := by omega
      rw [this, Nat.mod_self, if_pos rfl]
  · intro i _
    rfl

/-- Sum of a two-point indicator over all cyclic positions. -/
theorem sum_if_pair (m : ℕ) {R : Type} [CommRing R] (a b : ZMod (m + 1))
    (hab : a ≠ b) (u v : ZMod (m + 1) → R) :
    ∑ c : ZMod (m + 1), (if c = a then u c else if c = b then v c else 0) =
      u a + v b := by
  classical
  have hsplit : ∀ c : ZMod (m + 1),
      (if c = a then u c else if c = b then v c else 0) =
        (if c = a then u c else 0) + (if c = b then v c else 0) := by
    intro c
    by_cases hca : c = a
    · subst hca
      rw [if_pos rfl, if_pos rfl, if_neg hab, add_zero]
    · rw [if_neg hca, if_neg hca, zero_add]
  rw [Finset.sum_congr rfl fun c _ => hsplit c, Finset.sum_add_distrib,
    Finset.sum_ite_eq' Finset.univ a u, Finset.sum_ite_eq' Finset.univ b v,
    if_pos (Finset.mem_univ _), if_pos (Finset.mem_univ _)]

set_option maxHeartbeats 1000000 in
/-- Semantics of `add_assign_rotated`: it adds the cyclic shift by
`rotate_right` of `rhs` (as an element of `R_q`), i.e. coefficient `j`
receives the lifted coefficient at position `pw j - r` minus the one at
position `-r` (the `1 = -(X + ⋯ + X^m)` correction). -/
theorem add_assign_rotated_eq (m : ℕ) {R : Type} [CommRing R]
    (self rhs : Fin m → R) (r : ℕ) :
    add_assign_rotated m self rhs r = fun j =>
      self j + (toC m rhs (pw m j - (r : ZMod (m + 1))) -
        toC m rhs (0 - (r : ZMod (m + 1)))) := by
  funext j
  unfold add_assign_rotated
  apply congrArg (fun z => self j + z)
  have key : ∀ i : Fin m,
      (if ((if (i : ℕ) = 0 then m else (i : ℕ)) + r) % (m + 1) = 0 then
        -(rhs i)
      else if (j : ℕ) =
          ((if (i : ℕ) = 0 then m else (i : ℕ)) + r) % (m + 1) % m then
        rhs i
      else 0) =
      (if pw m i = 0 - (r : ZMod (m + 1)) then -(toC m rhs (pw m i))
       else if pw m i = pw m j - (r : ZMod (m + 1)) then toC m rhs (pw m i)
       else 0) := by
    intro i
    have hi := i.isLt
    have hcast :
        (((if (i : ℕ) = 0 then m else (i : ℕ)) + r : ℕ) : ZMod (m + 1)) =
          pw m i + (r : ZMod (m + 1)) := by
      unfold pw
      split <;> push_cast <;> ring
    have hc1 : ((if (i : ℕ) = 0 then m else (i : ℕ)) + r) % (m + 1) = 0 ↔
        pw m i = 0 - (r : ZMod (m + 1)) := by
      rw [← Nat.dvd_iff_mod_eq_zero, ← ZMod.natCast_zmod_eq_zero_iff_dvd,
        hcast, zero_sub, eq_neg_iff_add_eq_zero]
    rw [toC_pw]
    by_cases h1 : ((if (i : ℕ) = 0 then m else (i : ℕ)) + r) % (m + 1) = 0
    · rw [if_pos h1, if_pos (hc1.mp h1)]
    · rw [if_neg h1, if_neg (fun h => h1 (hc1.mpr h))]
      have hc2 : (j : ℕ) =
          ((if (i : ℕ) = 0 then m else (i : ℕ)) + r) % (m + 1) % m ↔
          pw m i = pw m j - (r : ZMod (m + 1)) := by
        rw [← pw_natCast_iff m j _ h1, hcast]
        constructor
        · intro h
          rw [h]
          ring
        · intro h
          rw [h]
          ring
      by_cases h2 : (j : ℕ) =
          ((if (i : ℕ) = 0 then m else (i : ℕ)) + r) % (m + 1) % m
      · rw [if_pos h2, if_pos (hc2.mp h2)]
      · rw [if_neg h2, if_neg (fun h => h2 (hc2.mpr h))]
  rw [Finset.sum_congr rfl fun i _ => key i]
  have hF0 : (if (0 : ZMod (m + 1)) = 0 - (r : ZMod (m + 1)) then
      -(toC m rhs (0 : ZMod (m + 1)))
    else if (0 : ZMod (m + 1)) = pw m j - (r : ZMod (m + 1)) then
      toC m rhs (0 : ZMod (m + 1))
    else 0) = 0 := by
    rw [toC_zero]
    split
    · rw [neg_zero]
    · split <;> rfl
  have hab : (0 : ZMod (m + 1)) - (r : ZMod (m + 1)) ≠
      pw m j - (r : ZMod (m + 1)) := by
    intro h
    exact pw_ne_zero m j (sub_left_inj.mp h).symm
  calc
    (∑ i : Fin m,
        (if pw m i = 0 - (r : ZMod (m + 1)) then -(toC m rhs (pw m i))
         else if pw m i = pw m j - (r : ZMod (m + 1)) then toC m rhs (pw m i)
         else 0)) =
        ∑ c : ZMod (m + 1),
          (if c = 0 - (r : ZMod (m + 1)) then -(toC m rhs c)
           else if c = pw m j - (r : ZMod (m + 1)) then toC m rhs c
           else 0) :=
      sum_pw m
        (fun c =>
          if c = 0 - (r : ZMod (m + 1)) then -(toC m rhs c)
          else if c = pw m j - (r : ZMod (m + 1)) then toC m rhs c
          else 0) hF0
    _ = -(toC m rhs (0 - (r : ZMod (m + 1)))) +
          toC m rhs (pw m j - (r : ZMod (m + 1))) :=
      sum_if_pair m _ _ hab _ _
    _ = toC m rhs (pw m j - (r : ZMod (m + 1))) -
          toC m rhs (0 - (r : ZMod (m + 1))) := by ring

end CycRepr

namespace CycRepr

/-- Closed form of the iterated-rotation reference loop. -/
theorem iterated_rotations_eq (m : ℕ) {R : Type} [CommRing R]
    (self rhs : Fin m → R) (L : ℕ) :
    iterated_rotations m self rhs L = fun j =>
      self j + ∑ r ∈ Finset.range L,
        (toC m rhs (pw m j - (r : ZMod (m + 1))) -
          toC m rhs (0 - (r : ZMod (m + 1)))) := by
  induction L with
  | zero => funext j; simp [iterated_rotations]
  | succ L ih =>
    show add_assign_rotated m (iterated_rotations m self rhs L) rhs L = _
    rw [add_assign_rotated_eq, ih]
    funext j
    rw [Finset.sum_range_succ]
    ring

/-- Closed form of the `add_assign_slided` accumulator after processing
powers `1, …, p`. -/
theorem slideAcc_eq (m : ℕ) {R : Type} [CommRing R] (rhs : Fin m → R)
    (L : ℕ) (hL1 : 1 ≤ L) (hLm : L ≤ m) (p : ℕ) (hp : p ≤ m) :
    slideAcc m rhs L p = ∑ r ∈ Finset.range L,
      (toC m rhs ((p : ZMod (m + 1)) - (r : ZMod (m + 1))) -
        toC m rhs (0 - (r : ZMod (m + 1)))) := by
  induction p with
  | zero =>
    show (0 : R) = _
    rw [Finset.sum_congr rfl fun r _ => by rw [Nat.cast_zero]]
    simp
  | succ p ih =>
    have hpm : p ≤ m := by omega
    have hmpos : 0 < m := by omega
    show slideAcc m rhs L p + idx m rhs ((p + 1) % m) -
        (if p + 1 = L then 0
         else idx m rhs ((p + 1 + (m + 1) - L) % (m + 1) % m)) = _
    rw [ih hpm]
    have htel : ∑ r ∈ Finset.range L,
        (toC m rhs (((p + 1 : ℕ) : ZMod (m + 1)) - (r : ZMod (m + 1))) -
          toC m rhs ((p : ZMod (m + 1)) - (r : ZMod (m + 1)))) =
        toC m rhs ((p + 1 : ℕ) : ZMod (m + 1)) -
          toC m rhs (((p + 1 : ℕ) : ZMod (m + 1)) - (L : ZMod (m + 1))) := by
      have := Finset.sum_range_sub'
        (fun r => toC m rhs (((p + 1 : ℕ) : ZMod (m + 1)) - (r : ZMod (m + 1)))) L
      simp only [Nat.cast_zero, sub_zero] at this
      rw [← this]
      apply Finset.sum_congr rfl
      intro r _
      congr 2
      push_cast
      ring
    have hterm1 : toC m rhs ((p + 1 : ℕ) : ZMod (m + 1)) =
        idx m rhs ((p + 1) % m) := by
      have hmod : (p + 1) % (m + 1) = p + 1 := Nat.mod_eq_of_lt (by omega)
      rw [toC_natCast m rhs (p + 1) (by omega), hmod]
    have hterm2 : toC m rhs (((p + 1 : ℕ) : ZMod (m + 1)) - (L : ZMod (m + 1))) =
        (if p + 1 = L then 0
         else idx m rhs ((p + 1 + (m + 1) - L) % (m + 1) % m)) := by
      by_cases hd : p + 1 = L
      · rw [if_pos hd, hd, sub_self, toC_zero]
      · rw [if_neg hd]
        have hcast : (((p + 1 + (m + 1) - L : ℕ)) : ZMod (m + 1)) =
            ((p + 1 : ℕ) : ZMod (m + 1)) - (L : ZMod (m + 1)) := by
          have hle : L ≤ p + 1 + (m + 1) := by omega
          rw [Nat.cast_sub hle]
          push_cast
          have hm1 : ((m : ZMod (m + 1)) + 1) = 0 := by
            rw [show ((m : ZMod (m + 1)) + 1) = ((m + 1 : ℕ) : ZMod (m + 1)) by push_cast; ring,
              ZMod.natCast_self]
          rw [hm1]
          ring
        have hne : (p + 1 + (m + 1) - L) % (m + 1) ≠ 0 := by
          rcases Nat.lt_or_ge (p + 1) L with hc | hc
          · have hv : p + 1 + (m + 1) - L < m + 1 := by omega
            rw [Nat.mod_eq_of_lt hv]
            omega
          · have hv : p + 1 + (m + 1) - L = (m + 1) + (p + 1 - L) := by omega
            rw [hv, Nat.add_mod_left]
            have hv2 : p + 1 - L < m + 1 := by omega
            rw [Nat.mod_eq_of_lt hv2]
            omega
        rw [← hcast, toC_natCast m rhs _ hne]
    rw [← hterm1, ← hterm2]
    simp only [Finset.sum_sub_distrib] at htel ⊢
    linear_combination -htel

/-- Closed form of `add_assign_slided` for `1 ≤ length ≤ m`. -/
theorem add_assign_slided_eq (m : ℕ) {R : Type} [CommRing R]
    (self rhs : Fin m → R) (L : ℕ) (hL1 : 1 ≤ L) (hLm : L ≤ m) :
    add_assign_slided m self rhs L = fun j =>
      self j + ∑ r ∈ Finset.range L,
        (toC m rhs (pw m j - (r : ZMod (m + 1))) -
          toC m rhs (0 - (r : ZMod (m + 1)))) := by
  unfold add_assign_slided
  rw [if_neg (by omega)]
  funext j
  have hj := j.isLt
  have hple : (if (j : ℕ) = 0 then m else (j : ℕ)) ≤ m := by
    split <;> omega
  rw [slideAcc_eq m rhs L hL1 hLm _ hple]
  have hpw : (((if (j : ℕ) = 0 then m else (j : ℕ)) : ℕ) : ZMod (m + 1)) =
      pw m j := by
    unfold pw
    split <;> rfl
  rw [hpw]

end CycRepr

/-- Claim C8: for every `length ∈ [0, M)`, `PowerPoly::add_assign_slided(rhs,
length)` leaves `self` equal to what `length` successive calls
`add_assign_rotated(rhs, i)`, `i = 0, …, length-1`, produce; in particular it
is a no-op for `length = 0`.  (`M = m + 1` is the prime cyclotomic index; the
coefficient vectors have length `M - 1 = m`.) -/
theorem c8_add_assign_slided_eq_iterated_rotations (m : ℕ) {R : Type}
    [CommRing R] (self rhs : Fin m → R) (length : ℕ) (hL : length < m + 1) :
    CycRepr.add_assign_slided m self rhs length =
      CycRepr.iterated_rotations m self rhs length ∧
    CycRepr.add_assign_slided m self rhs 0 = self := by
  constructor
  · rcases Nat.eq_zero_or_pos length with h0 | h1
    · subst h0
      show (if 0 = 0 then self else _) = self
      rw [if_pos rfl]
    · rw [CycRepr.add_assign_slided_eq m self rhs length h1 (by omega),
        CycRepr.iterated_rotations_eq]
  · show (if 0 = 0 then self else _) = self
    rw [if_pos rfl]

/-- Witness for C8 with `M = 3` (`m = 2`), length `2`, over `ℤ`. -/
theorem c8_add_assign_slided_eq_iterated_rotations_witness :
    CycRepr.add_assign_slided 2 (fun j : Fin 2 => ((j : ℕ) : ℤ))
        (fun j : Fin 2 => ((j : ℕ) + 5 : ℤ)) 2 =
      CycRepr.iterated_rotations 2 (fun j : Fin 2 => ((j : ℕ) : ℤ))
        (fun j : Fin 2 => ((j : ℕ) + 5 : ℤ)) 2 ∧
    CycRepr.add_assign_slided 2 (fun j : Fin 2 => ((j : ℕ) : ℤ))
        (fun j : Fin 2 => ((j : ℕ) + 5 : ℤ)) 0 = fun j : Fin 2 => ((j : ℕ) : ℤ) :=
  c8_add_assign_slided_eq_iterated_rotations 2 _ _ 2 (by decide)

namespace CycRepr

theorem cycConv_comm (m : ℕ) {R : Type} [CommRing R] (f g : ZMod (m + 1) → R) :
    cycConv m f g = cycConv m g f := by
  funext k
  show ∑ i : ZMod (m + 1), f i * g (k - i) = ∑ i : ZMod (m + 1), g i * f (k - i)
  calc ∑ i : ZMod (m + 1), f i * g (k - i)
      = ∑ i : ZMod (m + 1), g (k - i) * f (k - (k - i)) := by
        apply Finset.sum_congr rfl
        intro i _
        rw [sub_sub_cancel]
        ring
    _ = ∑ i : ZMod (m + 1), g i * f (k - i) :=
        Equiv.sum_comp (Equiv.subLeft k) (fun i => g i * f (k - i))

theorem cycConv_assoc (m : ℕ) {R : Type} [CommRing R]
    (f g h : ZMod (m + 1) → R) :
    cycConv m (cycConv m f g) h = cycConv m f (cycConv m g h) := by
  funext k
  show ∑ i : ZMod (m + 1), (∑ j : ZMod (m + 1), f j * g (i - j)) * h (k - i) = _
  calc ∑ i : ZMod (m + 1), (∑ j : ZMod (m + 1), f j * g (i - j)) * h (k - i)
      = ∑ i : ZMod (m + 1), ∑ j : ZMod (m + 1), f j * g (i - j) * h (k - i) := by
        apply Finset.sum_congr rfl
        intro i _
        rw [Finset.sum_mul]
    _ = ∑ j : ZMod (m + 1), ∑ i : ZMod (m + 1), f j * g (i - j) * h (k - i) :=
        Finset.sum_comm
    _ = ∑ j : ZMod (m + 1), f j * ∑ i : ZMod (m + 1), g (i - j) * h (k - i) := by
        apply Finset.sum_congr rfl
        intro j _
        rw [Finset.mul_sum]
        apply Finset.sum_congr rfl
        intro i _
        ring
    _ = ∑ j : ZMod (m + 1), f j * ∑ u : ZMod (m + 1), g u * h (k - j - u) := by
        apply Finset.sum_congr rfl
        intro j _
        congr 1
        rw [← Equiv.sum_comp (Equiv.addRight j) (fun i => g (i - j) * h (k - i))]
        apply Finset.sum_congr rfl
        intro u _
        show g (u + j - j) * h (k - (u + j)) = g u * h (k - j - u)
        rw [add_sub_cancel_right, sub_add_eq_sub_sub, sub_right_comm]
    _ = ∑ j : ZMod (m + 1), f j * cycConv m g h (k - j) := rfl

theorem pw_mk_val (m : ℕ) (c : ZMod (m + 1)) (hc : c ≠ 0)
    (h : c.val % m < m) : pw m ⟨c.val % m, h⟩ = c := by
  have hm : 0 < m := by
    rcases Nat.eq_zero_or_pos m with h0 | h0
    · subst h0
      simp at h
    · exact h0
  have hcv : c.val < m + 1 := ZMod.val_lt c
  have hcv0 : c.val ≠ 0 := fun h0 => hc ((ZMod.val_eq_zero c).mp h0)
  apply val_inj
  rw [pw_val]
  show (if c.val % m = 0 then m else c.val % m) = c.val
  rcases Nat.lt_or_ge c.val m with hlt | hge
  · rw [Nat.mod_eq_of_lt hlt, if_neg hcv0]
  · have hem : c.val = m := by omega
    rw [hem, Nat.mod_self, if_pos rfl]

theorem toC_fromC (m : ℕ) {R : Type} [CommRing R] (y : ZMod (m + 1) → R) :
    toC m (fromC m y) = fun c => y c - y 0 := by
  funext c
  unfold toC
  split
  · next h =>
    rw [h, sub_self]
  · next h =>
    show fromC m y _ = y c - y 0
    unfold fromC
    rw [pw_mk_val m c h]

theorem cycConv_sub_const_left (m : ℕ) {R : Type} [CommRing R]
    (y : ZMod (m + 1) → R) (u : R) (S : ZMod (m + 1) → R) :
    cycConv m (fun c => y c - u) S =
      fun k => cycConv m y S k - u * ∑ i : ZMod (m + 1), S i := by
  funext k
  show ∑ i : ZMod (m + 1), (y i - u) * S (k - i) = _
  calc ∑ i : ZMod (m + 1), (y i - u) * S (k - i)
      = ∑ i : ZMod (m + 1), (y i * S (k - i) - u * S (k - i)) := by
        apply Finset.sum_congr rfl
        intro i _
        ring
    _ = (∑ i : ZMod (m + 1), y i * S (k - i)) -
          ∑ i : ZMod (m + 1), u * S (k - i) := Finset.sum_sub_distrib
    _ = cycConv m y S k - u * ∑ i : ZMod (m + 1), S (k - i) := by
        rw [Finset.mul_sum]
        rfl
    _ = cycConv m y S k - u * ∑ i : ZMod (m + 1), S i := by
        have hre : (∑ i : ZMod (m + 1), S (k - i)) = ∑ i : ZMod (m + 1), S i :=
          Equiv.sum_comp (Equiv.subLeft k) S
        rw [hre]

theorem fromC_sub_const (m : ℕ) {R : Type} [CommRing R]
    (z : ZMod (m + 1) → R) (u : R) :
    fromC m (fun k => z k - u) = fromC m z := by
  funext j
  unfold fromC
  ring

theorem fromC_cycConv_absorb (m : ℕ) {R : Type} [CommRing R]
    (y S : ZMod (m + 1) → R) :
    fromC m (cycConv m (toC m (fromC m y)) S) = fromC m (cycConv m y S) := by
  rw [toC_fromC, cycConv_sub_const_left, fromC_sub_const]

/-- The two bracketings `(a·v)·s` and `(a·s)·v` agree for the reference
multiplication. -/
theorem mulRepr_swap (m : ℕ) {R : Type} [CommRing R] (a v s : Fin m → R) :
    mulRepr m (mulRepr m a v) s = mulRepr m (mulRepr m a s) v := by
  unfold mulRepr
  rw [fromC_cycConv_absorb, fromC_cycConv_absorb]
  rw [cycConv_assoc, cycConv_comm m (toC m v), ← cycConv_assoc]

theorem toC_add (m : ℕ) {R : Type} [CommRing R] (x y : Fin m → R) :
    toC m (fun j => x j + y j) = fun c => toC m x c + toC m y c := by
  funext c
  unfold toC
  split
  · rw [add_zero]
  · rfl

theorem cycConv_add_left (m : ℕ) {R : Type} [CommRing R]
    (f g h : ZMod (m + 1) → R) :
    cycConv m (fun c => f c + g c) h =
      fun k => cycConv m f h k + cycConv m g h k := by
  funext k
  show ∑ i : ZMod (m + 1), (f i + g i) * h (k - i) =
    (∑ i : ZMod (m + 1), f i * h (k - i)) + ∑ i : ZMod (m + 1), g i * h (k - i)
  rw [← Finset.sum_add_distrib]
  apply Finset.sum_congr rfl
  intro i _
  ring

theorem fromC_add (m : ℕ) {R : Type} [CommRing R] (f g : ZMod (m + 1) → R) :
    fromC m (fun c => f c + g c) = fun j => fromC m f j + fromC m g j := by
  funext j
  unfold fromC
  ring

/-- Left additivity of the reference multiplication. -/
theorem mulRepr_add_left (m : ℕ) {R : Type} [CommRing R] (x y z : Fin m → R) :
    mulRepr m (fun j => x j + y j) z =
      fun j => mulRepr m x z j + mulRepr m y z j := by
  unfold mulRepr
  rw [toC_add, cycConv_add_left, fromC_add]

theorem toC_smul (m : ℕ) {R : Type} [CommRing R] (c : R) (x : Fin m → R) :
    toC m (fun j => c * x j) = fun d => c * toC m x d := by
  funext d
  unfold toC
  split
  · rw [mul_zero]
  · rfl

theorem cycConv_smul_left (m : ℕ) {R : Type} [CommRing R] (c : R)
    (f h : ZMod (m + 1) → R) :
    cycConv m (fun d => c * f d) h = fun k => c * cycConv m f h k := by
  funext k
  show ∑ i : ZMod (m + 1), c * f i * h (k - i) =
    c * ∑ i : ZMod (m + 1), f i * h (k - i)
  rw [Finset.mul_sum]
  apply Finset.sum_congr rfl
  intro i _
  ring

theorem fromC_smul (m : ℕ) {R : Type} [CommRing R] (c : R)
    (f : ZMod (m + 1) → R) :
    fromC m (fun d => c * f d) = fun j => c * fromC m f j := by
  funext j
  unfold fromC
  ring

/-- Scalar multiples factor out of the reference multiplication. -/
theorem mulRepr_smul_left (m : ℕ) {R : Type} [CommRing R] (c : R)
    (x z : Fin m → R) :
    mulRepr m (fun j => c * x j) z = fun j => c * mulRepr m x z j := by
  unfold mulRepr
  rw [toC_smul, cycConv_smul_left, fromC_smul]

theorem toC_map (m : ℕ) {R S : Type} [CommRing R] [CommRing S] (φ : R →+* S)
    (x : Fin m → R) :
    toC m (fun j => φ (x j)) = fun c => φ (toC m x c) := by
  funext c
  unfold toC
  split
  · rw [map_zero]
  · rfl

theorem cycConv_map (m : ℕ) {R S : Type} [CommRing R] [CommRing S]
    (φ : R →+* S) (f g : ZMod (m + 1) → R) :
    cycConv m (fun c => φ (f c)) (fun c => φ (g c)) =
      fun k => φ (cycConv m f g k) := by
  funext k
  show ∑ i : ZMod (m + 1), φ (f i) * φ (g (k - i)) =
    φ (∑ i : ZMod (m + 1), f i * g (k - i))
  rw [map_sum]
  apply Finset.sum_congr rfl
  intro i _
  rw [map_mul]

theorem fromC_map (m : ℕ) {R S : Type} [CommRing R] [CommRing S] (φ : R →+* S)
    (f : ZMod (m + 1) → R) :
    fromC m (fun c => φ (f c)) = fun j => φ (fromC m f j) := by
  funext j
  unfold fromC
  rw [map_sub]

/-- Ring homomorphisms commute with the reference multiplication. -/
theorem mulRepr_map (m : ℕ) {R S : Type} [CommRing R] [CommRing S]
    (φ : R →+* S) (x y : Fin m → R) :
    mulRepr m (fun j => φ (x j)) (fun j => φ (y j)) =
      fun j => φ (mulRepr m x y j) := by
  unfold mulRepr
  rw [toC_map, toC_map, cycConv_map, fromC_map]

end CycRepr

/-- The decryption intermediate `c_1·s - c_0` of an honest encryption equals
the cast of `t·E - m` with `E` the aggregated noise (`t = 2^b`). -/
theorem bgv_temp_eq (m q b : ℕ) (pka : Fin m → ZMod q)
    (s epk e0 e1 v : Fin m → ℤ) (mm : Fin m → ℕ) (j : Fin m) :
    CycRepr.mulRepr m (BgvModel.encrypt_c1 m q (2 ^ b) pka e1 v)
        (BgvModel.reprCast m q s) j -
      BgvModel.encrypt_c0 m q (BgvModel.public_key_b m q (2 ^ b) pka s epk)
        (BgvModel.noised_plaintext (2 ^ b) mm e0) v j =
    ((((2 ^ b : ℕ) : ℤ) * BgvModel.decrypt_noise m s epk e0 e1 v j -
        (mm j : ℤ) : ℤ) : ZMod q) := by
  have h1 : CycRepr.mulRepr m (BgvModel.encrypt_c1 m q (2 ^ b) pka e1 v)
      (BgvModel.reprCast m q s) =
      fun i => CycRepr.mulRepr m
          (CycRepr.mulRepr m pka (BgvModel.reprCast m q v))
          (BgvModel.reprCast m q s) i +
        CycRepr.mulRepr m (fun i => ((((2 ^ b : ℕ) : ℤ) * e1 i : ℤ) : ZMod q))
          (BgvModel.reprCast m q s) i :=
    CycRepr.mulRepr_add_left m
      (CycRepr.mulRepr m pka (BgvModel.reprCast m q v))
      (fun i => ((((2 ^ b : ℕ) : ℤ) * e1 i : ℤ) : ZMod q))
      (BgvModel.reprCast m q s)
  have h2 : BgvModel.encrypt_c0 m q (BgvModel.public_key_b m q (2 ^ b) pka s epk)
      (BgvModel.noised_plaintext (2 ^ b) mm e0) v =
      fun i => CycRepr.mulRepr m (BgvModel.public_key_b m q (2 ^ b) pka s epk)
          (BgvModel.reprCast m q v) i +
        (((mm i : ℤ) + ((2 ^ b : ℕ) : ℤ) * e0 i : ℤ) : ZMod q) := rfl
  have h3 : CycRepr.mulRepr m (BgvModel.public_key_b m q (2 ^ b) pka s epk)
      (BgvModel.reprCast m q v) =
      fun i => CycRepr.mulRepr m
          (CycRepr.mulRepr m pka (BgvModel.reprCast m q s))
          (BgvModel.reprCast m q v) i +
        CycRepr.mulRepr m (fun i => ((((2 ^ b : ℕ) : ℤ) * epk i : ℤ) : ZMod q))
          (BgvModel.reprCast m q v) i :=
    CycRepr.mulRepr_add_left m
      (CycRepr.mulRepr m pka (BgvModel.reprCast m q s))
      (fun i => ((((2 ^ b : ℕ) : ℤ) * epk i : ℤ) : ZMod q))
      (BgvModel.reprCast m q v)
  have h4 : CycRepr.mulRepr m (CycRepr.mulRepr m pka (BgvModel.reprCast m q v))
      (BgvModel.reprCast m q s) =
      CycRepr.mulRepr m (CycRepr.mulRepr m pka (BgvModel.reprCast m q s))
        (BgvModel.reprCast m q v) :=
    CycRepr.mulRepr_swap m pka (BgvModel.reprCast m q v) (BgvModel.reprCast m q s)
  have hsm1 := CycRepr.mulRepr_smul_left m (((2 ^ b : ℕ) : ℤ)) e1 s
  have h5 : CycRepr.mulRepr m (fun i => ((((2 ^ b : ℕ) : ℤ) * e1 i : ℤ) : ZMod q))
      (BgvModel.reprCast m q s) =
      fun i => ((((2 ^ b : ℕ) : ℤ) * CycRepr.mulRepr m e1 s i : ℤ) : ZMod q) := by
    have hmap := CycRepr.mulRepr_map m (Int.castRingHom (ZMod q))
      (fun i => ((2 ^ b : ℕ) : ℤ) * e1 i) s
    have h6 : (fun i => ((CycRepr.mulRepr m (fun i => ((2 ^ b : ℕ) : ℤ) * e1 i)
        s i : ℤ) : ZMod q)) =
        fun i => ((((2 ^ b : ℕ) : ℤ) * CycRepr.mulRepr m e1 s i : ℤ) : ZMod q) := by
      rw [hsm1]
    exact hmap.trans h6
  have hsm2 := CycRepr.mulRepr_smul_left m (((2 ^ b : ℕ) : ℤ)) epk v
  have h7 : CycRepr.mulRepr m (fun i => ((((2 ^ b : ℕ) : ℤ) * epk i : ℤ) : ZMod q))
      (BgvModel.reprCast m q v) =
      fun i => ((((2 ^ b : ℕ) : ℤ) * CycRepr.mulRepr m epk v i : ℤ) : ZMod q) := by
    have hmap := CycRepr.mulRepr_map m (Int.castRingHom (ZMod q))
      (fun i => ((2 ^ b : ℕ) : ℤ) * epk i) v
    have h6 : (fun i => ((CycRepr.mulRepr m (fun i => ((2 ^ b : ℕ) : ℤ) * epk i)
        v i : ℤ) : ZMod q)) =
        fun i => ((((2 ^ b : ℕ) : ℤ) * CycRepr.mulRepr m epk v i : ℤ) : ZMod q) := by
      rw [hsm2]
    exact hmap.trans h6
  simp only [h1, h2, h3, h4, h5, h7, BgvModel.decrypt_noise]
  push_cast
  ring

/-- Claim C2: BGV round trip.  For every plaintext vector with coefficients
below `t = 2^b` and every honest key generation and encryption (key noise
`epk`, encryption randomness `v`, noises `e0`, `e1`), `decrypt` of the
ciphertext returns the plaintext, provided the aggregated noise is small
enough that each shifted coefficient `2^(Bq-1) + m_j - t·E_j` stays inside
`[0, q)` — the "overwhelming probability" event of the claim. -/
theorem c2_bgv_encrypt_decrypt_roundtrip (m q Bq b : ℕ) (hq : 0 < q)
    (hb : b + 1 ≤ Bq) (pka : Fin m → ZMod q) (s epk e0 e1 v : Fin m → ℤ)
    (mm : Fin m → ℕ) (hmm : ∀ j, mm j < 2 ^ b)
    (hX : ∀ j,
      0 ≤ (2 : ℤ) ^ (Bq - 1) + (mm j : ℤ) -
          ((2 ^ b : ℕ) : ℤ) * BgvModel.decrypt_noise m s epk e0 e1 v j ∧
      (2 : ℤ) ^ (Bq - 1) + (mm j : ℤ) -
          ((2 ^ b : ℕ) : ℤ) * BgvModel.decrypt_noise m s epk e0 e1 v j < q) :
    BgvModel.decrypt m q Bq b s
      (BgvModel.encrypt_c0 m q (BgvModel.public_key_b m q (2 ^ b) pka s epk)
        (BgvModel.noised_plaintext (2 ^ b) mm e0) v)
      (BgvModel.encrypt_c1 m q (2 ^ b) pka e1 v) = mm := by
  haveI : NeZero q := ⟨by omega⟩
  funext j
  unfold BgvModel.decrypt
  rw [bgv_temp_eq m q b pka s epk e0 e1 v mm j]
  have hcast : (((2 ^ (Bq - 1) : ℕ) : ZMod q) -
      ((((2 ^ b : ℕ) : ℤ) * BgvModel.decrypt_noise m s epk e0 e1 v j -
        (mm j : ℤ) : ℤ) : ZMod q)) =
      (((2 : ℤ) ^ (Bq - 1) + (mm j : ℤ) -
        ((2 ^ b : ℕ) : ℤ) * BgvModel.decrypt_noise m s epk e0 e1 v j : ℤ) :
        ZMod q) := by
    push_cast
    ring
  rw [hcast]
  have hval : (((((2 : ℤ) ^ (Bq - 1) + (mm j : ℤ) -
      ((2 ^ b : ℕ) : ℤ) * BgvModel.decrypt_noise m s epk e0 e1 v j : ℤ) :
        ZMod q)).val : ℤ) =
      (2 : ℤ) ^ (Bq - 1) + (mm j : ℤ) -
        ((2 ^ b : ℕ) : ℤ) * BgvModel.decrypt_noise m s epk e0 e1 v j := by
    rw [ZMod.val_intCast]
    exact Int.emod_eq_of_lt (hX j).1 (hX j).2
  have hmod : ((2 : ℤ) ^ (Bq - 1) + (mm j : ℤ) -
      ((2 ^ b : ℕ) : ℤ) * BgvModel.decrypt_noise m s epk e0 e1 v j) %
        ((2 ^ b : ℕ) : ℤ) = (mm j : ℤ) := by
    have h2 : (2 : ℤ) ^ (Bq - 1) =
        ((2 ^ b : ℕ) : ℤ) * 2 ^ (Bq - 1 - b) := by
      push_cast
      rw [← pow_add]
      congr 1
      omega
    have hdecomp : (2 : ℤ) ^ (Bq - 1) + (mm j : ℤ) -
        ((2 ^ b : ℕ) : ℤ) * BgvModel.decrypt_noise m s epk e0 e1 v j =
        (mm j : ℤ) + ((2 ^ b : ℕ) : ℤ) * (2 ^ (Bq - 1 - b) -
          BgvModel.decrypt_noise m s epk e0 e1 v j) := by
      linear_combination h2
    rw [hdecomp, Int.add_mul_emod_self_left]
    exact Int.emod_eq_of_lt (Int.natCast_nonneg _) (by exact_mod_cast hmm j)
  have hfin : ((((((2 : ℤ) ^ (Bq - 1) + (mm j : ℤ) -
      ((2 ^ b : ℕ) : ℤ) * BgvModel.decrypt_noise m s epk e0 e1 v j : ℤ) :
        ZMod q)).val % 2 ^ b : ℕ) : ℤ) = (mm j : ℤ) := by
    rw [Int.natCast_mod, hval, hmod]
  exact_mod_cast hfin

/-- Witness for C2 at `M = 3` (`m = 2`), `q = 5`, `Bq = 3`, `b = 1`
(`t = 2`), the zero plaintext, zero keys and zero noise. -/
theorem c2_bgv_encrypt_decrypt_roundtrip_witness :
    BgvModel.decrypt 2 5 3 1 (fun _ : Fin 2 => (0 : ℤ))
      (BgvModel.encrypt_c0 2 5
        (BgvModel.public_key_b 2 5 (2 ^ 1) (fun _ : Fin 2 => (0 : ZMod 5))
          (fun _ : Fin 2 => (0 : ℤ)) (fun _ : Fin 2 => (0 : ℤ)))
        (BgvModel.noised_plaintext (2 ^ 1) (fun _ : Fin 2 => (0 : ℕ))
          (fun _ : Fin 2 => (0 : ℤ)))
        (fun _ : Fin 2 => (0 : ℤ)))
      (BgvModel.encrypt_c1 2 5 (2 ^ 1) (fun _ : Fin 2 => (0 : ZMod 5))
        (fun _ : Fin 2 => (0 : ℤ)) (fun _ : Fin 2 => (0 : ℤ))) =
      fun _ : Fin 2 => (0 : ℕ) :=
  c2_bgv_encrypt_decrypt_roundtrip 2 5 3 1 (by decide) (by decide)
    (fun _ : Fin 2 => (0 : ZMod 5)) (fun _ : Fin 2 => (0 : ℤ))
    (fun _ : Fin 2 => (0 : ℤ)) (fun _ : Fin 2 => (0 : ℤ))
    (fun _ : Fin 2 => (0 : ℤ)) (fun _ : Fin 2 => (0 : ℤ))
    (fun _ : Fin 2 => (0 : ℕ)) (by decide) (by decide)

namespace CycRepr

/-- `add_assign_slided` in closed form, all `length ≤ m` (including the
no-op `length = 0`). -/
theorem add_assign_slided_eq_slide (m : ℕ) {R : Type} [CommRing R]
    (self rhs : Fin m → R) (L : ℕ) (hLm : L ≤ m) :
    add_assign_slided m self rhs L = fun j => self j + slide m rhs L j := by
  rcases Nat.eq_zero_or_pos L with h0 | h1
  · subst h0
    funext j
    show (if 0 = 0 then self else _) j = self j + slide m rhs 0 j
    rw [if_pos rfl]
    unfold slide
    rw [Finset.range_zero, Finset.sum_empty, add_zero]
  · rw [add_assign_slided_eq m self rhs L h1 hLm]
    rfl

theorem slide_add (m : ℕ) {R : Type} [CommRing R] (x y : Fin m → R) (L : ℕ) :
    slide m (fun j => x j + y j) L =
      fun j => slide m x L j + slide m y L j := by
  funext j
  unfold slide
  rw [← Finset.sum_add_distrib]
  apply Finset.sum_congr rfl
  intro r _
  simp only [toC_add]
  ring

theorem slide_smul (m : ℕ) {R : Type} [CommRing R] (c : R) (x : Fin m → R)
    (L : ℕ) :
    slide m (fun j => c * x j) L = fun j => c * slide m x L j := by
  funext j
  unfold slide
  rw [Finset.mul_sum]
  apply Finset.sum_congr rfl
  intro r _
  simp only [toC_smul]
  ring

theorem slide_map (m : ℕ) {R S : Type} [CommRing R] [CommRing S] (φ : R →+* S)
    (x : Fin m → R) (L : ℕ) :
    slide m (fun j => φ (x j)) L = fun j => φ (slide m x L j) := by
  funext j
  unfold slide
  rw [map_sum]
  apply Finset.sum_congr rfl
  intro r _
  simp only [toC_map, map_sub]

theorem mulRepr_comm (m : ℕ) {R : Type} [CommRing R] (x y : Fin m → R) :
    mulRepr m x y = mulRepr m y x := by
  unfold mulRepr
  rw [cycConv_comm]

theorem mulRepr_add_right (m : ℕ) {R : Type} [CommRing R] (x y z : Fin m → R) :
    mulRepr m x (fun j => y j + z j) =
      fun j => mulRepr m x y j + mulRepr m x z j := by
  rw [mulRepr_comm, mulRepr_add_left]
  funext j
  rw [mulRepr_comm m y x, mulRepr_comm m z x]

theorem cycConv_sub_const_right (m : ℕ) {R : Type} [CommRing R]
    (f y : ZMod (m + 1) → R) (u : R) :
    cycConv m f (fun c => y c - u) =
      fun k => cycConv m f y k - (∑ i : ZMod (m + 1), f i) * u := by
  funext k
  show ∑ i : ZMod (m + 1), f i * (y (k - i) - u) = _
  calc ∑ i : ZMod (m + 1), f i * (y (k - i) - u)
      = ∑ i : ZMod (m + 1), (f i * y (k - i) - f i * u) := by
        apply Finset.sum_congr rfl
        intro i _
        ring
    _ = (∑ i : ZMod (m + 1), f i * y (k - i)) -
          ∑ i : ZMod (m + 1), f i * u := Finset.sum_sub_distrib
    _ = cycConv m f y k - (∑ i : ZMod (m + 1), f i) * u := by
        rw [← Finset.sum_mul]
        rfl

theorem slide_eq_fromC (m : ℕ) {R : Type} [CommRing R] (v : Fin m → R)
    (L : ℕ) :
    slide m v L = fromC m
      (fun c => ∑ r ∈ Finset.range L, toC m v (c - (r : ZMod (m + 1)))) := by
  funext j
  show ∑ r ∈ Finset.range L,
      (toC m v (pw m j - (r : ZMod (m + 1))) -
        toC m v (0 - (r : ZMod (m + 1)))) =
    (∑ r ∈ Finset.range L, toC m v (pw m j - (r : ZMod (m + 1)))) -
      ∑ r ∈ Finset.range L, toC m v (0 - (r : ZMod (m + 1)))
  exact Finset.sum_sub_distrib

theorem cycConv_sum_shift (m : ℕ) {R : Type} [CommRing R]
    (f g : ZMod (m + 1) → R) (L : ℕ) :
    cycConv m f (fun c => ∑ r ∈ Finset.range L, g (c - (r : ZMod (m + 1)))) =
      fun k => ∑ r ∈ Finset.range L, cycConv m f g (k - (r : ZMod (m + 1))) := by
  funext k
  show ∑ i : ZMod (m + 1),
      f i * ∑ r ∈ Finset.range L, g (k - i - (r : ZMod (m + 1))) = _
  calc ∑ i : ZMod (m + 1),
        f i * ∑ r ∈ Finset.range L, g (k - i - (r : ZMod (m + 1)))
      = ∑ i : ZMod (m + 1), ∑ r ∈ Finset.range L,
          f i * g (k - i - (r : ZMod (m + 1))) := by
        apply Finset.sum_congr rfl
        intro i _
        rw [Finset.mul_sum]
    _ = ∑ r ∈ Finset.range L, ∑ i : ZMod (m + 1),
          f i * g (k - i - (r : ZMod (m + 1))) := Finset.sum_comm
    _ = ∑ r ∈ Finset.range L, ∑ i : ZMod (m + 1),
          f i * g (k - (r : ZMod (m + 1)) - i) := by
        apply Finset.sum_congr rfl
        intro r _
        apply Finset.sum_congr rfl
        intro i _
        rw [sub_right_comm]
    _ = ∑ r ∈ Finset.range L, cycConv m f g (k - (r : ZMod (m + 1))) := rfl

/-- Multiplication by a ring element commutes with the slided-rotation sum
(the latter is itself multiplication by `1 + X + ⋯ + X^{L-1}`). -/
theorem mulRepr_slide_right (m : ℕ) {R : Type} [CommRing R] (a v : Fin m → R)
    (L : ℕ) :
    mulRepr m a (slide m v L) = slide m (mulRepr m a v) L := by
  have hY : toC m (slide m v L) =
      fun c => (∑ r ∈ Finset.range L, toC m v (c - (r : ZMod (m + 1)))) -
        ∑ r ∈ Finset.range L, toC m v (0 - (r : ZMod (m + 1))) := by
    rw [slide_eq_fromC, toC_fromC]
  have hL1 : mulRepr m a (slide m v L) =
      fromC m (cycConv m (toC m a)
        (fun c => ∑ r ∈ Finset.range L, toC m v (c - (r : ZMod (m + 1))))) := by
    show fromC m (cycConv m (toC m a) (toC m (slide m v L))) = _
    rw [hY, cycConv_sub_const_right, fromC_sub_const]
  have hR1 : slide m (mulRepr m a v) L =
      fromC m (fun c => ∑ r ∈ Finset.range L,
        (cycConv m (toC m a) (toC m v) (c - (r : ZMod (m + 1))) -
          cycConv m (toC m a) (toC m v) 0)) := by
    rw [slide_eq_fromC]
    apply congrArg
    funext c
    apply Finset.sum_congr rfl
    intro r _
    have ht : toC m (mulRepr m a v) =
        fun d => cycConv m (toC m a) (toC m v) d -
          cycConv m (toC m a) (toC m v) 0 :=
      toC_fromC m (cycConv m (toC m a) (toC m v))
    rw [ht]
  have hR2 : (fun c => ∑ r ∈ Finset.range L,
      (cycConv m (toC m a) (toC m v) (c - (r : ZMod (m + 1))) -
        cycConv m (toC m a) (toC m v) 0)) =
      fun c => (∑ r ∈ Finset.range L,
        cycConv m (toC m a) (toC m v) (c - (r : ZMod (m + 1)))) -
        L • cycConv m (toC m a) (toC m v) 0 := by
    funext c
    rw [Finset.sum_sub_distrib, Finset.sum_const, Finset.card_range]
  rw [hL1, hR1, hR2, fromC_sub_const, cycConv_sum_shift]

end CycRepr

/-- Reduction mod `q` commutes with the slided-rotation sum. -/
theorem reprCast_add_slide (m q : ℕ) (xv yv : Fin m → ℤ) (L : ℕ) :
    BgvModel.reprCast m q (fun i => xv i + CycRepr.slide m yv L i) =
      fun i => BgvModel.reprCast m q xv i +
        CycRepr.slide m (BgvModel.reprCast m q yv) L i := by
  funext i
  have hsm := congrFun
    (CycRepr.slide_map m (Int.castRingHom (ZMod q)) yv L) i
  show ((xv i + CycRepr.slide m yv L i : ℤ) : ZMod q) =
    ((xv i : ℤ) : ZMod q) +
      CycRepr.slide m (BgvModel.reprCast m q yv) L i
  rw [Int.cast_add]
  exact congrArg (fun z => ((xv i : ℤ) : ZMod q) + z) hsm.symm

/-- `pk·(v + slide w)` splits into `pk·v` plus the slide of `pk·w`. -/
theorem mulRepr_cast_slide (m q : ℕ) (pk : Fin m → ZMod q)
    (xv yv : Fin m → ℤ) (L : ℕ) :
    CycRepr.mulRepr m pk
      (BgvModel.reprCast m q (fun i => xv i + CycRepr.slide m yv L i)) =
      fun j => CycRepr.mulRepr m pk (BgvModel.reprCast m q xv) j +
        CycRepr.slide m
          (CycRepr.mulRepr m pk (BgvModel.reprCast m q yv)) L j := by
  rw [reprCast_add_slide,
    CycRepr.mulRepr_add_right m pk (BgvModel.reprCast m q xv)
      (CycRepr.slide m (BgvModel.reprCast m q yv) L),
    CycRepr.mulRepr_slide_right m pk (BgvModel.reprCast m q yv) L]

/-- `c_0` of the encryption of a slided accumulation is the slided
accumulation of the `c_0` components. -/
theorem encrypt_c0_slided (m q : ℕ) (pkb : Fin m → ZMod q)
    (xnp xv ynp yv : Fin m → ℤ) (L : ℕ) (hLm : L ≤ m) :
    BgvModel.encrypt_c0 m q pkb (CycRepr.add_assign_slided m xnp ynp L)
      (CycRepr.add_assign_slided m xv yv L) =
    CycRepr.add_assign_slided m (BgvModel.encrypt_c0 m q pkb xnp xv)
      (BgvModel.encrypt_c0 m q pkb ynp yv) L := by
  rw [CycRepr.add_assign_slided_eq_slide m xnp ynp L hLm,
    CycRepr.add_assign_slided_eq_slide m xv yv L hLm,
    CycRepr.add_assign_slided_eq_slide m
      (BgvModel.encrypt_c0 m q pkb xnp xv)
      (BgvModel.encrypt_c0 m q pkb ynp yv) L hLm]
  have hmul := mulRepr_cast_slide m q pkb xv yv L
  have hsplit : CycRepr.slide m (BgvModel.encrypt_c0 m q pkb ynp yv) L =
      fun j => CycRepr.slide m
          (CycRepr.mulRepr m pkb (BgvModel.reprCast m q yv)) L j +
        CycRepr.slide m (fun i => ((ynp i : ℤ) : ZMod q)) L j :=
    CycRepr.slide_add m
      (CycRepr.mulRepr m pkb (BgvModel.reprCast m q yv))
      (fun i => ((ynp i : ℤ) : ZMod q)) L
  have hnp : ∀ i, ((xnp i + CycRepr.slide m ynp L i : ℤ) : ZMod q) =
      ((xnp i : ℤ) : ZMod q) +
        CycRepr.slide m (fun i => ((ynp i : ℤ) : ZMod q)) L i := by
    intro i
    have hsm := congrFun
      (CycRepr.slide_map m (Int.castRingHom (ZMod q)) ynp L) i
    rw [Int.cast_add]
    exact congrArg (fun z => ((xnp i : ℤ) : ZMod q) + z) hsm.symm
  funext j
  show CycRepr.mulRepr m pkb
      (BgvModel.reprCast m q (fun i => xv i + CycRepr.slide m yv L i)) j +
      ((xnp j + CycRepr.slide m ynp L j : ℤ) : ZMod q) =
    BgvModel.encrypt_c0 m q pkb xnp xv j +
      CycRepr.slide m (BgvModel.encrypt_c0 m q pkb ynp yv) L j
  have henc : BgvModel.encrypt_c0 m q pkb xnp xv j =
      CycRepr.mulRepr m pkb (BgvModel.reprCast m q xv) j +
        ((xnp j : ℤ) : ZMod q) := rfl
  simp only [hmul, hsplit, hnp, henc]
  ring

/-- `c_1` of the encryption of a slided accumulation is the slided
accumulation of the `c_1` components. -/
theorem encrypt_c1_slided (m q t : ℕ) (pka : Fin m → ZMod q)
    (xe1 xv ye1 yv : Fin m → ℤ) (L : ℕ) (hLm : L ≤ m) :
    BgvModel.encrypt_c1 m q t pka (CycRepr.add_assign_slided m xe1 ye1 L)
      (CycRepr.add_assign_slided m xv yv L) =
    CycRepr.add_assign_slided m (BgvModel.encrypt_c1 m q t pka xe1 xv)
      (BgvModel.encrypt_c1 m q t pka ye1 yv) L := by
  rw [CycRepr.add_assign_slided_eq_slide m xe1 ye1 L hLm,
    CycRepr.add_assign_slided_eq_slide m xv yv L hLm,
    CycRepr.add_assign_slided_eq_slide m
      (BgvModel.encrypt_c1 m q t pka xe1 xv)
      (BgvModel.encrypt_c1 m q t pka ye1 yv) L hLm]
  have hmul := mulRepr_cast_slide m q pka xv yv L
  have hsplit : CycRepr.slide m (BgvModel.encrypt_c1 m q t pka ye1 yv) L =
      fun j => CycRepr.slide m
          (CycRepr.mulRepr m pka (BgvModel.reprCast m q yv)) L j +
        CycRepr.slide m (fun i => (((t : ℤ) * ye1 i : ℤ) : ZMod q)) L j :=
    CycRepr.slide_add m
      (CycRepr.mulRepr m pka (BgvModel.reprCast m q yv))
      (fun i => (((t : ℤ) * ye1 i : ℤ) : ZMod q)) L
  have he1 : ∀ i, (((t : ℤ) * (xe1 i + CycRepr.slide m ye1 L i) : ℤ) : ZMod q) =
      (((t : ℤ) * xe1 i : ℤ) : ZMod q) +
        CycRepr.slide m (fun i => (((t : ℤ) * ye1 i : ℤ) : ZMod q)) L i := by
    intro i
    have hsc := congrFun (CycRepr.slide_smul m ((t : ℕ) : ℤ) ye1 L) i
    have hsm := congrFun
      (CycRepr.slide_map m (Int.castRingHom (ZMod q))
        (fun i => ((t : ℕ) : ℤ) * ye1 i) L) i
    have hkey : (((t : ℤ) * CycRepr.slide m ye1 L i : ℤ) : ZMod q) =
        CycRepr.slide m (fun i => (((t : ℤ) * ye1 i : ℤ) : ZMod q)) L i :=
      (congrArg (fun z : ℤ => (z : ZMod q)) hsc.symm).trans hsm.symm
    rw [mul_add, Int.cast_add]
    exact congrArg (fun z => (((t : ℤ) * xe1 i : ℤ) : ZMod q) + z) hkey
  funext j
  show CycRepr.mulRepr m pka
      (BgvModel.reprCast m q (fun i => xv i + CycRepr.slide m yv L i)) j +
      (((t : ℤ) * (xe1 j + CycRepr.slide m ye1 L j) : ℤ) : ZMod q) =
    BgvModel.encrypt_c1 m q t pka xe1 xv j +
      CycRepr.slide m (BgvModel.encrypt_c1 m q t pka ye1 yv) L j
  have henc : BgvModel.encrypt_c1 m q t pka xe1 xv j =
      CycRepr.mulRepr m pka (BgvModel.reprCast m q xv) j +
        (((t : ℤ) * xe1 j : ℤ) : ZMod q) := rfl
  simp only [hmul, hsplit, he1, henc]
  ring

/-- Encryption maps the prover's slided accumulation step to the verifier's
ciphertext accumulation step. -/
theorem encryptPre_add_slided (m q t : ℕ) (pka pkb : Fin m → ZMod q)
    (x y : Zkpopk.Prepared m) (L : ℕ) (hLm : L ≤ m) :
    Zkpopk.encryptPre m q t pka pkb (Zkpopk.Prepared.add_slided m x y L) =
      { c0 := CycRepr.add_assign_slided m
          (Zkpopk.encryptPre m q t pka pkb x).c0
          (Zkpopk.encryptPre m q t pka pkb y).c0 L,
        c1 := CycRepr.add_assign_slided m
          (Zkpopk.encryptPre m q t pka pkb x).c1
          (Zkpopk.encryptPre m q t pka pkb y).c1 L } := by
  show Zkpopk.PreCt.mk
      (BgvModel.encrypt_c0 m q pkb (CycRepr.add_assign_slided m x.np y.np L)
        (CycRepr.add_assign_slided m x.v y.v L))
      (BgvModel.encrypt_c1 m q t pka (CycRepr.add_assign_slided m x.e1 y.e1 L)
        (CycRepr.add_assign_slided m x.v y.v L)) =
    Zkpopk.PreCt.mk
      (CycRepr.add_assign_slided m (BgvModel.encrypt_c0 m q pkb x.np x.v)
        (BgvModel.encrypt_c0 m q pkb y.np y.v) L)
      (CycRepr.add_assign_slided m (BgvModel.encrypt_c1 m q t pka x.e1 x.v)
        (BgvModel.encrypt_c1 m q t pka y.e1 y.v) L)
  rw [encrypt_c0_slided m q pkb x.np x.v y.np y.v L hLm,
    encrypt_c1_slided m q t pka x.e1 x.v y.e1 y.v L hLm]

/-- The verifier's ciphertext-accumulation loop, started from the encryption
of the prover's pseudo-input and fed the encryptions of the inputs, computes
the encryption of the prover's accumulated response. -/
theorem ctAccumulate_encrypt (m q t : ℕ) (pka pkb : Fin m → ZMod q)
    (χ : ℕ → ℕ) (hχ : ∀ k, χ k ≤ m) (inputs : List (Zkpopk.Prepared m)) :
    ∀ (acc : Zkpopk.Prepared m) (pos : ℕ),
    Zkpopk.ctAccumulate m q χ (Zkpopk.encryptPre m q t pka pkb acc)
      (inputs.map (Zkpopk.encryptPre m q t pka pkb)) pos =
      Zkpopk.encryptPre m q t pka pkb
        (Zkpopk.accumulate m χ acc inputs pos) := by
  induction inputs with
  | nil =>
    intro acc pos
    rfl
  | cons input rest ih =>
    intro acc pos
    show Zkpopk.ctAccumulate m q χ
        { c0 := CycRepr.add_assign_slided m
            (Zkpopk.encryptPre m q t pka pkb acc).c0
            (Zkpopk.encryptPre m q t pka pkb input).c0 (χ pos),
          c1 := CycRepr.add_assign_slided m
            (Zkpopk.encryptPre m q t pka pkb acc).c1
            (Zkpopk.encryptPre m q t pka pkb input).c1 (χ pos) }
        (rest.map (Zkpopk.encryptPre m q t pka pkb)) (pos + 1) =
      Zkpopk.encryptPre m q t pka pkb
        (Zkpopk.accumulate m χ
          (Zkpopk.Prepared.add_slided m acc input (χ pos)) rest (pos + 1))
    rw [← encryptPre_add_slided m q t pka pkb acc input (χ pos) (hχ pos)]
    exact ih (Zkpopk.Prepared.add_slided m acc input (χ pos)) (pos + 1)

/-- When `respond` succeeds, the response has one entry per pseudo-input,
every entry passes the bound check, and each entry encrypts to the
corresponding accumulated commitment ciphertext. -/
theorem respond_accepted_spec (W b M nc npr pinv m q t : ℕ)
    (pka pkb : Fin m → ZMod q) (χ : ℕ → ℕ) (hχ : ∀ k, χ k ≤ m)
    (inputs : List (Zkpopk.Prepared m)) :
    ∀ (pseudo response : List (Zkpopk.Prepared m)) (pos : ℕ),
    Zkpopk.respond W b M nc npr pinv m χ inputs pseudo pos = some response →
    response.length = pseudo.length ∧
    (response.all fun r => Zkpopk.boundsOk W b M nc npr pinv m r) = true ∧
    ((response.zip (Zkpopk.ctAccumList m q χ
        (inputs.map (Zkpopk.encryptPre m q t pka pkb))
        (pseudo.map (Zkpopk.encryptPre m q t pka pkb)) pos)).all fun rc =>
      Zkpopk.encryptPre m q t pka pkb rc.1 == rc.2) = true := by
  intro pseudo
  induction pseudo with
  | nil =>
    intro response pos hresp
    simp only [Zkpopk.respond, Option.some.injEq] at hresp
    subst hresp
    exact ⟨rfl, rfl, rfl⟩
  | cons pi rest ih =>
    intro response pos hresp
    simp only [Zkpopk.respond] at hresp
    by_cases hb : Zkpopk.boundsOk W b M nc npr pinv m
        (Zkpopk.accumulate m χ pi inputs pos) = true
    · rw [if_pos hb] at hresp
      cases hrec : Zkpopk.respond W b M nc npr pinv m χ inputs rest
          (pos + inputs.length) with
      | none =>
        rw [hrec] at hresp
        simp only [Option.map_none'] at hresp
        exact Option.noConfusion hresp
      | some tail =>
        rw [hrec] at hresp
        simp only [Option.map_some', Option.some.injEq] at hresp
        subst hresp
        obtain ⟨ih1, ih2, ih3⟩ := ih tail (pos + inputs.length) hrec
        refine ⟨?_, ?_, ?_⟩
        · show tail.length + 1 = rest.length + 1
          rw [ih1]
        · rw [List.all_cons, Bool.and_eq_true]
          exact ⟨hb, ih2⟩
        · show ((Zkpopk.accumulate m χ pi inputs pos :: tail).zip
              (Zkpopk.ctAccumulate m q χ
                  (Zkpopk.encryptPre m q t pka pkb pi)
                  (inputs.map (Zkpopk.encryptPre m q t pka pkb)) pos ::
                Zkpopk.ctAccumList m q χ
                  (inputs.map (Zkpopk.encryptPre m q t pka pkb))
                  (rest.map (Zkpopk.encryptPre m q t pka pkb))
                  (pos + (inputs.map (Zkpopk.encryptPre m q t pka pkb)).length))).all
              (fun rc => Zkpopk.encryptPre m q t pka pkb rc.1 == rc.2) = true
          rw [List.zip_cons_cons, List.all_cons, Bool.and_eq_true]
          constructor
          · show (Zkpopk.encryptPre m q t pka pkb
                (Zkpopk.accumulate m χ pi inputs pos) ==
              Zkpopk.ctAccumulate m q χ
                (Zkpopk.encryptPre m q t pka pkb pi)
                (inputs.map (Zkpopk.encryptPre m q t pka pkb)) pos) = true
            rw [ctAccumulate_encrypt m q t pka pkb χ hχ inputs pi pos]
            exact beq_self_eq_true _
          · rw [List.length_map]
            exact ih3
    · rw [if_neg hb] at hresp
      exact absurd hresp (Option.some_ne_none response).symm

/-- Claim C6: ZKPoPK completeness.  For every list of honest prover inputs,
a commitment consisting of the encryptions of the prover's pseudo-inputs,
and any challenge (modelled by the challenge stream `χ` drawn from the
seeded ChaCha20 generator, `χ k < M = m + 1`, shared by prover and verifier),
whenever `Prover::respond` returns `Ok(response)`, `Verifier::verify` on the
honest ciphertexts, the commitment, the same challenge and the response
returns `true`. -/
theorem c6_zkpopk_completeness (W b M nc npr pinv m q t numProofs : ℕ)
    (pka pkb : Fin m → ZMod q) (χ : ℕ → ℕ) (hχ : ∀ k, χ k ≤ m)
    (inputs pseudo response : List (Zkpopk.Prepared m))
    (hlen : pseudo.length = numProofs)
    (hresp : Zkpopk.respond W b M nc npr pinv m χ inputs pseudo 0 =
      some response) :
    Zkpopk.verify W b M nc npr pinv m q t numProofs pka pkb
      (inputs.map (Zkpopk.encryptPre m q t pka pkb))
      (pseudo.map (Zkpopk.encryptPre m q t pka pkb)) χ response = true := by
  obtain ⟨hlen2, hball, hzip⟩ :=
    respond_accepted_spec W b M nc npr pinv m q t pka pkb χ hχ inputs
      pseudo response 0 hresp
  unfold Zkpopk.verify
  simp only [Bool.and_eq_true]
  refine ⟨⟨⟨?_, ?_⟩, hball⟩, hzip⟩
  · rw [List.length_map]
    exact beq_iff_eq.mpr hlen
  · exact beq_iff_eq.mpr (hlen2.trans hlen)

/-- Witness for C6: `M = 2` (`m = 1`), `q = 2`, `t = 2`, bound parameters
`B = 12`, no inputs, one all-zero pseudo-input, the zero challenge stream. -/
theorem c6_zkpopk_completeness_witness :
    Zkpopk.verify 16 1 3 1 1 1 1 2 2 1
      (fun _ : Fin 1 => (0 : ZMod 2)) (fun _ : Fin 1 => (0 : ZMod 2))
      (List.map (Zkpopk.encryptPre 1 2 2 (fun _ : Fin 1 => (0 : ZMod 2))
        (fun _ : Fin 1 => (0 : ZMod 2))) [])
      (List.map (Zkpopk.encryptPre 1 2 2 (fun _ : Fin 1 => (0 : ZMod 2))
        (fun _ : Fin 1 => (0 : ZMod 2)))
        [{ np := fun _ => 0, e1 := fun _ => 0, v := fun _ => 0 }])
      (fun _ => 0)
      [{ np := fun _ => 0, e1 := fun _ => 0, v := fun _ => 0 }] = true :=
  c6_zkpopk_completeness 16 1 3 1 1 1 1 2 2 1
    (fun _ : Fin 1 => (0 : ZMod 2)) (fun _ : Fin 1 => (0 : ZMod 2))
    (fun _ => 0) (fun _ => Nat.zero_le 1)
    [] [{ np := fun _ => 0, e1 := fun _ => 0, v := fun _ => 0 }]
    [{ np := fun _ => 0, e1 := fun _ => 0, v := fun _ => 0 }]
    (by decide) (by decide)

/-- The `sigma_a` computed inside `Truncer::truncate` does not wrap in `KS`:
it is the plain sum of the two mod-`2^s` values. -/
theorem sigma_eq (k s : ℕ) (hk : 1 ≤ k) (x y : ℤ) :
    (x % 2 ^ s + y % 2 ^ s % 2 ^ s) % 2 ^ (k + s) = x % 2 ^ s + y % 2 ^ s := by
  have hself : y % 2 ^ s % 2 ^ s = y % 2 ^ s := Int.emod_emod_of_dvd y dvd_rfl
  rw [hself]
  have hs : (0 : ℤ) < 2 ^ s := by positivity
  apply Int.emod_eq_of_lt
  · exact add_nonneg (Int.emod_nonneg x (by positivity))
      (Int.emod_nonneg y (by positivity))
  · have hx := Int.emod_lt_of_pos x hs
    have hy := Int.emod_lt_of_pos y hs
    have hpow : (2 : ℤ) ^ s + 2 ^ s ≤ 2 ^ (k + s) := by
      have h1 : (2 : ℤ) ^ s + 2 ^ s = 2 ^ (s + 1) := by
        rw [pow_succ]
        ring
      rw [h1]
      exact pow_le_pow_right₀ (by norm_num) (by omega)
    omega

/-- The exact integer identity behind all three `hat` cross-sums: the VOLE
masks cancel and the remainder factors as `2^s` times the shifted halves. -/
theorem vole_hat_sum (s : ℕ) (A0 A1 g0 g1 u0 u1 : ℤ) :
    A0 * g0 + (A0 * g1 - u1) + u0 - (A0 % 2 ^ s + A1 % 2 ^ s) * g0 +
      (A1 * g1 + (A1 * g0 - u0) + u1 - (A1 % 2 ^ s + A0 % 2 ^ s) * g1) =
    2 ^ s * ((A0 / 2 ^ s + A1 / 2 ^ s) * (g0 + g1)) := by
  have h0 := Int.ediv_add_emod A0 (2 ^ s)
  have h1 := Int.ediv_add_emod A1 (2 ^ s)
  linear_combination (-(g0 + g1)) * h0 + (-(g0 + g1)) * h1

/-- Collapse the inner mod-`2^(k+2s)` reductions of a cross-party `hat`
sum. -/
theorem hat_sum_reduce (R T0 T1 S0 S1 g0 g1 Z : ℤ)
    (hZ : T0 - S0 * g0 + (T1 - S1 * g1) = Z) :
    ((T0 % R - S0 * g0) % R + (T1 % R - S1 * g1) % R) % R = Z % R := by
  have hM : (T0 % R - S0 * g0) + (T1 % R - S1 * g1) ≡
      (T0 - S0 * g0) + (T1 - S1 * g1) [ZMOD R] := by
    have h0 : T0 % R ≡ T0 [ZMOD R] := Int.emod_emod_of_dvd T0 dvd_rfl
    have h1 : T1 % R ≡ T1 [ZMOD R] := Int.emod_emod_of_dvd T1 dvd_rfl
    exact (h0.sub (Int.ModEq.refl (S0 * g0))).add (h1.sub (Int.ModEq.refl (S1 * g1)))
  calc ((T0 % R - S0 * g0) % R + (T1 % R - S1 * g1) % R) % R
      = ((T0 % R - S0 * g0) + (T1 % R - S1 * g1)) % R :=
        (Int.add_emod _ _ _).symm
    _ = ((T0 - S0 * g0) + (T1 - S1 * g1)) % R := hM
    _ = Z % R := by rw [hZ]

/-- Summing party 0's carry-adjusted shift with party 1's plain shift gives
the shift of the cross-party sum, whenever the low `s` bits of that sum are a
sharing of zero. -/
theorem shift_pair_sum (k s : ℕ) (X Y : ℤ) (hz : (X + Y) % 2 ^ s = 0) :
    (Truncer.shift k s ((X + Y % 2 ^ s) % 2 ^ (k + 2 * s)) +
      Truncer.shift k s Y) % 2 ^ (k + s) =
    (X + Y) % 2 ^ (k + 2 * s) / 2 ^ s % 2 ^ (k + s) := by
  have hP : (0 : ℤ) < 2 ^ s := by positivity
  have hR : (2 : ℤ) ^ (k + 2 * s) = 2 ^ s * 2 ^ (k + s) := by
    rw [← pow_add]
    congr 1
    omega
  have hXd := Int.ediv_add_emod X (2 ^ s)
  have hYd := Int.ediv_add_emod Y (2 ^ s)
  have hrx0 : 0 ≤ X % 2 ^ s := Int.emod_nonneg X (by positivity)
  have hry0 : 0 ≤ Y % 2 ^ s := Int.emod_nonneg Y (by positivity)
  have hsum : (X % 2 ^ s + Y % 2 ^ s) % 2 ^ s = 0 := by
    have h := Int.add_emod X Y (2 ^ s)
    omega
  obtain ⟨c, hc⟩ := Int.dvd_of_emod_eq_zero hsum
  have hXY : X + Y % 2 ^ s = 2 ^ s * (X / 2 ^ s + c) := by
    linear_combination (-1 : ℤ) * hXd + hc
  have hXY2 : X + Y = 2 ^ s * (X / 2 ^ s + Y / 2 ^ s + c) := by
    linear_combination (-1 : ℤ) * hXd + (-1 : ℤ) * hYd + hc
  have hshift1 : Truncer.shift k s ((X + Y % 2 ^ s) % 2 ^ (k + 2 * s)) =
      (X / 2 ^ s + c) % 2 ^ (k + s) := by
    unfold Truncer.shift
    rw [hXY, hR, Int.mul_emod_mul_of_pos _ _ hP,
      Int.mul_ediv_cancel_left _ (ne_of_gt hP),
      Int.emod_emod_of_dvd _ dvd_rfl]
  have hshift2 : Truncer.shift k s Y = Y / 2 ^ s % 2 ^ (k + s) := rfl
  have hrhs : (X + Y) % 2 ^ (k + 2 * s) / 2 ^ s % 2 ^ (k + s) =
      (X / 2 ^ s + Y / 2 ^ s + c) % 2 ^ (k + s) := by
    rw [hXY2, hR, Int.mul_emod_mul_of_pos _ _ hP,
      Int.mul_ediv_cancel_left _ (ne_of_gt hP),
      Int.emod_emod_of_dvd _ dvd_rfl]
  rw [hshift1, hshift2, hrhs, ← Int.add_emod]
  congr 1
  ring

/-- Dividing out the `2^s` factor of a mod-`2^(k+2s)` congruent value. -/
theorem shift_of_scaled (k s : ℕ) (X W : ℤ)
    (h : X % 2 ^ (k + 2 * s) = 2 ^ s * W % 2 ^ (k + 2 * s)) :
    X % 2 ^ (k + 2 * s) / 2 ^ s % 2 ^ (k + s) = W % 2 ^ (k + s) := by
  have hP : (0 : ℤ) < 2 ^ s := by positivity
  have hR : (2 : ℤ) ^ (k + 2 * s) = 2 ^ s * 2 ^ (k + s) := by
    rw [← pow_add]
    congr 1
    omega
  rw [h, hR, Int.mul_emod_mul_of_pos _ _ hP,
    Int.mul_ediv_cancel_left _ (ne_of_gt hP),
    Int.emod_emod_of_dvd _ dvd_rfl]

/-- When every cross-party `hat` sum vanishes mod `2^s`, both parties' calls
to `Truncer::truncate` succeed, with party 0 shifting its carry-adjusted
vectors and party 1 its own `hat` vectors. -/
theorem truncate_joint_of_checks (k s : ℕ) {n : ℕ} (α0 α1 : ℤ)
    (in0 in1 : Truncer.TruncIn n)
    (hC : ∀ j,
      ((Truncer.hats k s α0 in0 fun j => in1.wide_a j % 2 ^ s).hat_a_tags j +
        (Truncer.hats k s α1 in1 fun j => in0.wide_a j % 2 ^ s).hat_a_tags j) %
          2 ^ s = 0 ∧
      ((Truncer.hats k s α0 in0 fun j => in1.wide_a j % 2 ^ s).hat_c j +
        (Truncer.hats k s α1 in1 fun j => in0.wide_a j % 2 ^ s).hat_c j) %
          2 ^ s = 0 ∧
      ((Truncer.hats k s α0 in0 fun j => in1.wide_a j % 2 ^ s).hat_c_tags j +
        (Truncer.hats k s α1 in1 fun j => in0.wide_a j % 2 ^ s).hat_c_tags j) %
          2 ^ s = 0) :
    Truncer.truncate_joint k s α0 α1 in0 in1 =
      (some (fun j => Truncer.shift k s (in0.wide_a j),
         fun j => Truncer.shift k s
           (((Truncer.hats k s α0 in0 fun j => in1.wide_a j % 2 ^ s).hat_a_tags j +
             (Truncer.hats k s α1 in1 fun j => in0.wide_a j % 2 ^ s).hat_a_tags j %
               2 ^ s) % 2 ^ (k + 2 * s)),
         fun j => Truncer.shift k s
           (((Truncer.hats k s α0 in0 fun j => in1.wide_a j % 2 ^ s).hat_c j +
             (Truncer.hats k s α1 in1 fun j => in0.wide_a j % 2 ^ s).hat_c j %
               2 ^ s) % 2 ^ (k + 2 * s)),
         fun j => Truncer.shift k s
           (((Truncer.hats k s α0 in0 fun j => in1.wide_a j % 2 ^ s).hat_c_tags j +
             (Truncer.hats k s α1 in1 fun j => in0.wide_a j % 2 ^ s).hat_c_tags j %
               2 ^ s) % 2 ^ (k + 2 * s))),
       some (fun j => Truncer.shift k s (in1.wide_a j),
         fun j => Truncer.shift k s
           ((Truncer.hats k s α1 in1 fun j => in0.wide_a j % 2 ^ s).hat_a_tags j),
         fun j => Truncer.shift k s
           ((Truncer.hats k s α1 in1 fun j => in0.wide_a j % 2 ^ s).hat_c j),
         fun j => Truncer.shift k s
           ((Truncer.hats k s α1 in1 fun j => in0.wide_a j % 2 ^ s).hat_c_tags j))) := by
  have hcomm : ∀ x y : ℤ, (x + y % 2 ^ s) % 2 ^ s = (x + y) % 2 ^ s :=
    fun x y => add_emod_right_collapse x y _
  have hcond0 : ∀ j,
      ((Truncer.hats k s α0 in0 fun j => in1.wide_a j % 2 ^ s).hat_a_tags j +
        (Truncer.comMsg s
          (Truncer.hats k s α1 in1 fun j => in0.wide_a j % 2 ^ s)).hat_a_tags j) %
            2 ^ s = 0 ∧
      ((Truncer.hats k s α0 in0 fun j => in1.wide_a j % 2 ^ s).hat_c j +
        (Truncer.comMsg s
          (Truncer.hats k s α1 in1 fun j => in0.wide_a j % 2 ^ s)).hat_c j) %
            2 ^ s = 0 ∧
      ((Truncer.hats k s α0 in0 fun j => in1.wide_a j % 2 ^ s).hat_c_tags j +
        (Truncer.comMsg s
          (Truncer.hats k s α1 in1 fun j => in0.wide_a j % 2 ^ s)).hat_c_tags j) %
            2 ^ s = 0 := by
    intro j
    obtain ⟨h1, h2, h3⟩ := hC j
    unfold Truncer.comMsg
    rw [hcomm, hcomm, hcomm]
    exact ⟨h1, h2, h3⟩
  have hcond1 : ∀ j,
      ((Truncer.hats k s α1 in1 fun j => in0.wide_a j % 2 ^ s).hat_a_tags j +
        (Truncer.comMsg s
          (Truncer.hats k s α0 in0 fun j => in1.wide_a j % 2 ^ s)).hat_a_tags j) %
            2 ^ s = 0 ∧
      ((Truncer.hats k s α1 in1 fun j => in0.wide_a j % 2 ^ s).hat_c j +
        (Truncer.comMsg s
          (Truncer.hats k s α0 in0 fun j => in1.wide_a j % 2 ^ s)).hat_c j) %
            2 ^ s = 0 ∧
      ((Truncer.hats k s α1 in1 fun j => in0.wide_a j % 2 ^ s).hat_c_tags j +
        (Truncer.comMsg s
          (Truncer.hats k s α0 in0 fun j => in1.wide_a j % 2 ^ s)).hat_c_tags j) %
            2 ^ s = 0 := by
    intro j
    obtain ⟨h1, h2, h3⟩ := hC j
    unfold Truncer.comMsg
    rw [hcomm, hcomm, hcomm, Int.add_comm
      ((Truncer.hats k s α1 in1 fun j => in0.wide_a j % 2 ^ s).hat_a_tags j),
      Int.add_comm ((Truncer.hats k s α1 in1 fun j => in0.wide_a j % 2 ^ s).hat_c j),
      Int.add_comm
        ((Truncer.hats k s α1 in1 fun j => in0.wide_a j % 2 ^ s).hat_c_tags j)]
    exact ⟨h1, h2, h3⟩
  unfold Truncer.truncate_joint
  rw [truncate0_spec, truncate1_spec, if_pos hcond0, if_pos hcond1]
  have hself : ∀ x : ℤ, x % 2 ^ s % 2 ^ s = x % 2 ^ s :=
    fun x => Int.emod_emod_of_dvd x dvd_rfl
  simp only [Truncer.comMsg, hself]

/-- A value congruent to a multiple of `2^s` modulo `2^(k+2s)` has zero low
`s` bits. -/
theorem low_bits_zero (k s : ℕ) (X Y W : ℤ)
    (h : (X + Y) % 2 ^ (k + 2 * s) = 2 ^ s * W % 2 ^ (k + 2 * s)) :
    (X + Y) % 2 ^ s = 0 := by
  have hdvd : (2 : ℤ) ^ s ∣ 2 ^ (k + 2 * s) := pow_dvd_pow 2 (by omega)
  calc (X + Y) % 2 ^ s
      = (X + Y) % 2 ^ (k + 2 * s) % 2 ^ s := (Int.emod_emod_of_dvd _ hdvd).symm
    _ = 2 ^ s * W % 2 ^ (k + 2 * s) % 2 ^ s := by rw [h]
    _ = 2 ^ s * W % 2 ^ s := Int.emod_emod_of_dvd _ hdvd
    _ = 0 := Int.mul_emod_right _ _

/-- Combined output-sum form: the two parties' shifted outputs sum to the
scaled-down witness `W` modulo `2^(k+s)`. -/
theorem pair_out_sum (k s : ℕ) (X Y W : ℤ)
    (h : (X + Y) % 2 ^ (k + 2 * s) = 2 ^ s * W % 2 ^ (k + 2 * s)) :
    (Truncer.shift k s ((X + Y % 2 ^ s) % 2 ^ (k + 2 * s)) +
      Truncer.shift k s Y) % 2 ^ (k + s) = W % 2 ^ (k + s) := by
  rw [shift_pair_sum k s X Y (low_bits_zero k s X Y W h),
    shift_of_scaled k s (X + Y) W h]

/-- `shift` of a canonical `KS` residue is its exact quotient by `2^s`. -/
theorem shift_of_small (k s : ℕ) (x : ℤ) :
    Truncer.shift k s (x % 2 ^ (k + s)) = x % 2 ^ (k + s) / 2 ^ s := by
  have hP : (0 : ℤ) < 2 ^ s := by positivity
  have h0 : 0 ≤ x % 2 ^ (k + s) :=
    Int.emod_nonneg x (by positivity)
  have h1 : x % 2 ^ (k + s) < 2 ^ k * 2 ^ s := by
    rw [← pow_add]
    exact Int.emod_lt_of_pos x (by positivity)
  have h2 : x % 2 ^ (k + s) / 2 ^ s < 2 ^ k := Int.ediv_lt_of_lt_mul hP h1
  have h3 : (2 : ℤ) ^ k ≤ 2 ^ (k + s) := pow_le_pow_right₀ (by norm_num) (by omega)
  unfold Truncer.shift
  apply Int.emod_eq_of_lt (Int.ediv_nonneg h0 (le_of_lt hP))
  omega

/-- The cross-party sum of one `hat` component of `Truncer::truncate`, for
the `party_inputs` shape: the masks cancel and the sum is `2^s` times the
product of the shifted `a` halves with the summed multiplicand. -/
theorem hats_component_sum (k s : ℕ) (hk : 1 ≤ k) (A0 A1 g0 g1 f0 f1 u0 u1 : ℤ)
    (hf0 : f0 = g0) (hf1 : f1 = g1) :
    (((A0 * g0 + (A0 * g1 - u1) + u0) % 2 ^ (k + 2 * s) -
        (A0 % 2 ^ s + A1 % 2 ^ s % 2 ^ s) % 2 ^ (k + s) * f0) % 2 ^ (k + 2 * s) +
      ((A1 * g1 + (A1 * g0 - u0) + u1) % 2 ^ (k + 2 * s) -
        (A1 % 2 ^ s + A0 % 2 ^ s % 2 ^ s) % 2 ^ (k + s) * f1) % 2 ^ (k + 2 * s)) %
        2 ^ (k + 2 * s) =
    2 ^ s * ((A0 / 2 ^ s + A1 / 2 ^ s) * (g0 + g1)) % 2 ^ (k + 2 * s) := by
  rw [hf0, hf1, sigma_eq k s hk A0 A1, sigma_eq k s hk A1 A0]
  exact hat_sum_reduce _ _ _ _ _ _ _ _ (vole_hat_sum s A0 A1 g0 g1 u0 u1)

/-- Claim C1: honest Beaver-triple generation.  In the honest two-party
execution of one `get_beaver_triples` batch (dealer authentication of `b`,
the three VOLE rounds, joint truncation), both truncations succeed and the
returned shares satisfy, slot-wise: the triple relation
`(a_0+a_1)·(b_0+b_1) ≡ c_0+c_1 (mod 2^k)` and, for each of `a`, `b`, `c`,
`tag_0+tag_1 ≡ (α_0+α_1)·(val_0+val_1) (mod 2^(k+s))`. -/
theorem c1_beaver_triples (k s : ℕ) (hk : 1 ≤ k) {n : ℕ} (α0 α1 : ℤ)
    (a0 a1 b0 b1 eb0 eb1 e00 e01 e10 e11 e20 e21 : Fin n → ℤ) :
    ∃ qa0 qat0 qc0 qct0 qa1 qat1 qc1 qct1 : Fin n → ℤ,
      LowGear.beaver_joint k s α0 α1 a0 a1 b0 b1 eb0 eb1 e00 e01 e10 e11 e20 e21 =
        (some (qa0, qat0, qc0, qct0), some (qa1, qat1, qc1, qct1)) ∧
      ∀ i,
        ((qa0 i + qa1 i) * (b0 i % 2 ^ k + b1 i % 2 ^ k)) % 2 ^ k =
          (qc0 i + qc1 i) % 2 ^ k ∧
        (qat0 i + qat1 i) % 2 ^ (k + s) =
          ((α0 % 2 ^ s + α1 % 2 ^ s) * (qa0 i + qa1 i)) % 2 ^ (k + s) ∧
        (LowGear.dealer_tags k s α0 b0 b1 eb0 eb1 i + LowGear.dealer_tags k s α1 b1 b0 eb1 eb0 i) % 2 ^ (k + s) =
          ((α0 % 2 ^ s + α1 % 2 ^ s) * (b0 i % 2 ^ k + b1 i % 2 ^ k)) %
            2 ^ (k + s) ∧
        (qct0 i + qct1 i) % 2 ^ (k + s) =
          ((α0 % 2 ^ s + α1 % 2 ^ s) * (qc0 i + qc1 i)) % 2 ^ (k + s) := by
  have hkey_at : ∀ i,
      ((Truncer.hats k s α0 (LowGear.party_inputs k s α0 α1 a0 b0 b1 (LowGear.dealer_tags k s α0 b0 b1 eb0 eb1) (LowGear.dealer_tags k s α1 b1 b0 eb1 eb0) e00 e01 e10 e11 e20 e21) fun j => (LowGear.party_inputs k s α1 α0 a1 b1 b0 (LowGear.dealer_tags k s α1 b1 b0 eb1 eb0) (LowGear.dealer_tags k s α0 b0 b1 eb0 eb1) e01 e00 e11 e10 e21 e20).wide_a j % 2 ^ s).hat_a_tags i + (Truncer.hats k s α1 (LowGear.party_inputs k s α1 α0 a1 b1 b0 (LowGear.dealer_tags k s α1 b1 b0 eb1 eb0) (LowGear.dealer_tags k s α0 b0 b1 eb0 eb1) e01 e00 e11 e10 e21 e20) fun j => (LowGear.party_inputs k s α0 α1 a0 b0 b1 (LowGear.dealer_tags k s α0 b0 b1 eb0 eb1) (LowGear.dealer_tags k s α1 b1 b0 eb1 eb0) e00 e01 e10 e11 e20 e21).wide_a j % 2 ^ s).hat_a_tags i) % 2 ^ (k + 2 * s) =
      2 ^ s * ((a0 i % 2 ^ (k + s) / 2 ^ s + a1 i % 2 ^ (k + s) / 2 ^ s) * (α0 % 2 ^ s + α1 % 2 ^ s)) % 2 ^ (k + 2 * s) :=
    fun i => hats_component_sum k s hk (a0 i % 2 ^ (k + s)) (a1 i % 2 ^ (k + s))
      (α0 % 2 ^ s) (α1 % 2 ^ s) (α0 % 2 ^ s) (α1 % 2 ^ s) (e00 i) (e01 i) rfl rfl
  have hkey_c : ∀ i,
      ((Truncer.hats k s α0 (LowGear.party_inputs k s α0 α1 a0 b0 b1 (LowGear.dealer_tags k s α0 b0 b1 eb0 eb1) (LowGear.dealer_tags k s α1 b1 b0 eb1 eb0) e00 e01 e10 e11 e20 e21) fun j => (LowGear.party_inputs k s α1 α0 a1 b1 b0 (LowGear.dealer_tags k s α1 b1 b0 eb1 eb0) (LowGear.dealer_tags k s α0 b0 b1 eb0 eb1) e01 e00 e11 e10 e21 e20).wide_a j % 2 ^ s).hat_c i + (Truncer.hats k s α1 (LowGear.party_inputs k s α1 α0 a1 b1 b0 (LowGear.dealer_tags k s α1 b1 b0 eb1 eb0) (LowGear.dealer_tags k s α0 b0 b1 eb0 eb1) e01 e00 e11 e10 e21 e20) fun j => (LowGear.party_inputs k s α0 α1 a0 b0 b1 (LowGear.dealer_tags k s α0 b0 b1 eb0 eb1) (LowGear.dealer_tags k s α1 b1 b0 eb1 eb0) e00 e01 e10 e11 e20 e21).wide_a j % 2 ^ s).hat_c i) % 2 ^ (k + 2 * s) =
      2 ^ s * ((a0 i % 2 ^ (k + s) / 2 ^ s + a1 i % 2 ^ (k + s) / 2 ^ s) * (b0 i % 2 ^ k + b1 i % 2 ^ k)) % 2 ^ (k + 2 * s) :=
    fun i => hats_component_sum k s hk (a0 i % 2 ^ (k + s)) (a1 i % 2 ^ (k + s))
      (b0 i % 2 ^ k) (b1 i % 2 ^ k) (b0 i % 2 ^ k % 2 ^ k) (b1 i % 2 ^ k % 2 ^ k)
      (e10 i) (e11 i) (Int.emod_emod_of_dvd (b0 i) dvd_rfl)
      (Int.emod_emod_of_dvd (b1 i) dvd_rfl)
  have hkey_ct : ∀ i,
      ((Truncer.hats k s α0 (LowGear.party_inputs k s α0 α1 a0 b0 b1 (LowGear.dealer_tags k s α0 b0 b1 eb0 eb1) (LowGear.dealer_tags k s α1 b1 b0 eb1 eb0) e00 e01 e10 e11 e20 e21) fun j => (LowGear.party_inputs k s α1 α0 a1 b1 b0 (LowGear.dealer_tags k s α1 b1 b0 eb1 eb0) (LowGear.dealer_tags k s α0 b0 b1 eb0 eb1) e01 e00 e11 e10 e21 e20).wide_a j % 2 ^ s).hat_c_tags i + (Truncer.hats k s α1 (LowGear.party_inputs k s α1 α0 a1 b1 b0 (LowGear.dealer_tags k s α1 b1 b0 eb1 eb0) (LowGear.dealer_tags k s α0 b0 b1 eb0 eb1) e01 e00 e11 e10 e21 e20) fun j => (LowGear.party_inputs k s α0 α1 a0 b0 b1 (LowGear.dealer_tags k s α0 b0 b1 eb0 eb1) (LowGear.dealer_tags k s α1 b1 b0 eb1 eb0) e00 e01 e10 e11 e20 e21).wide_a j % 2 ^ s).hat_c_tags i) % 2 ^ (k + 2 * s) =
      2 ^ s * ((a0 i % 2 ^ (k + s) / 2 ^ s + a1 i % 2 ^ (k + s) / 2 ^ s) * (LowGear.dealer_tags k s α0 b0 b1 eb0 eb1 i % 2 ^ (k + s) + LowGear.dealer_tags k s α1 b1 b0 eb1 eb0 i % 2 ^ (k + s))) % 2 ^ (k + 2 * s) :=
    fun i => hats_component_sum k s hk (a0 i % 2 ^ (k + s)) (a1 i % 2 ^ (k + s))
      (LowGear.dealer_tags k s α0 b0 b1 eb0 eb1 i % 2 ^ (k + s)) (LowGear.dealer_tags k s α1 b1 b0 eb1 eb0 i % 2 ^ (k + s)) (LowGear.dealer_tags k s α0 b0 b1 eb0 eb1 i % 2 ^ (k + s)) (LowGear.dealer_tags k s α1 b1 b0 eb1 eb0 i % 2 ^ (k + s))
      (e20 i) (e21 i) rfl rfl
  have hch : ∀ i,
      ((Truncer.hats k s α0 (LowGear.party_inputs k s α0 α1 a0 b0 b1 (LowGear.dealer_tags k s α0 b0 b1 eb0 eb1) (LowGear.dealer_tags k s α1 b1 b0 eb1 eb0) e00 e01 e10 e11 e20 e21) fun j => (LowGear.party_inputs k s α1 α0 a1 b1 b0 (LowGear.dealer_tags k s α1 b1 b0 eb1 eb0) (LowGear.dealer_tags k s α0 b0 b1 eb0 eb1) e01 e00 e11 e10 e21 e20).wide_a j % 2 ^ s).hat_a_tags i + (Truncer.hats k s α1 (LowGear.party_inputs k s α1 α0 a1 b1 b0 (LowGear.dealer_tags k s α1 b1 b0 eb1 eb0) (LowGear.dealer_tags k s α0 b0 b1 eb0 eb1) e01 e00 e11 e10 e21 e20) fun j => (LowGear.party_inputs k s α0 α1 a0 b0 b1 (LowGear.dealer_tags k s α0 b0 b1 eb0 eb1) (LowGear.dealer_tags k s α1 b1 b0 eb1 eb0) e00 e01 e10 e11 e20 e21).wide_a j % 2 ^ s).hat_a_tags i) % 2 ^ s = 0 ∧
      ((Truncer.hats k s α0 (LowGear.party_inputs k s α0 α1 a0 b0 b1 (LowGear.dealer_tags k s α0 b0 b1 eb0 eb1) (LowGear.dealer_tags k s α1 b1 b0 eb1 eb0) e00 e01 e10 e11 e20 e21) fun j => (LowGear.party_inputs k s α1 α0 a1 b1 b0 (LowGear.dealer_tags k s α1 b1 b0 eb1 eb0) (LowGear.dealer_tags k s α0 b0 b1 eb0 eb1) e01 e00 e11 e10 e21 e20).wide_a j % 2 ^ s).hat_c i + (Truncer.hats k s α1 (LowGear.party_inputs k s α1 α0 a1 b1 b0 (LowGear.dealer_tags k s α1 b1 b0 eb1 eb0) (LowGear.dealer_tags k s α0 b0 b1 eb0 eb1) e01 e00 e11 e10 e21 e20) fun j => (LowGear.party_inputs k s α0 α1 a0 b0 b1 (LowGear.dealer_tags k s α0 b0 b1 eb0 eb1) (LowGear.dealer_tags k s α1 b1 b0 eb1 eb0) e00 e01 e10 e11 e20 e21).wide_a j % 2 ^ s).hat_c i) % 2 ^ s = 0 ∧
      ((Truncer.hats k s α0 (LowGear.party_inputs k s α0 α1 a0 b0 b1 (LowGear.dealer_tags k s α0 b0 b1 eb0 eb1) (LowGear.dealer_tags k s α1 b1 b0 eb1 eb0) e00 e01 e10 e11 e20 e21) fun j => (LowGear.party_inputs k s α1 α0 a1 b1 b0 (LowGear.dealer_tags k s α1 b1 b0 eb1 eb0) (LowGear.dealer_tags k s α0 b0 b1 eb0 eb1) e01 e00 e11 e10 e21 e20).wide_a j % 2 ^ s).hat_c_tags i + (Truncer.hats k s α1 (LowGear.party_inputs k s α1 α0 a1 b1 b0 (LowGear.dealer_tags k s α1 b1 b0 eb1 eb0) (LowGear.dealer_tags k s α0 b0 b1 eb0 eb1) e01 e00 e11 e10 e21 e20) fun j => (LowGear.party_inputs k s α0 α1 a0 b0 b1 (LowGear.dealer_tags k s α0 b0 b1 eb0 eb1) (LowGear.dealer_tags k s α1 b1 b0 eb1 eb0) e00 e01 e10 e11 e20 e21).wide_a j % 2 ^ s).hat_c_tags i) % 2 ^ s = 0 :=
    fun i => ⟨low_bits_zero k s _ _ _ (hkey_at i),
      low_bits_zero k s _ _ _ (hkey_c i),
      low_bits_zero k s _ _ _ (hkey_ct i)⟩
  have hjoint := truncate_joint_of_checks k s α0 α1 (LowGear.party_inputs k s α0 α1 a0 b0 b1 (LowGear.dealer_tags k s α0 b0 b1 eb0 eb1) (LowGear.dealer_tags k s α1 b1 b0 eb1 eb0) e00 e01 e10 e11 e20 e21) (LowGear.party_inputs k s α1 α0 a1 b1 b0 (LowGear.dealer_tags k s α1 b1 b0 eb1 eb0) (LowGear.dealer_tags k s α0 b0 b1 eb0 eb1) e01 e00 e11 e10 e21 e20) hch
  have hmacb : ∀ i, (LowGear.dealer_tags k s α0 b0 b1 eb0 eb1 i + LowGear.dealer_tags k s α1 b1 b0 eb1 eb0 i) % 2 ^ (k + s) =
      ((α0 % 2 ^ s + α1 % 2 ^ s) * (b0 i % 2 ^ k + b1 i % 2 ^ k)) % 2 ^ (k + s) := by
    intro i
    show ((LowGear.dealer_tags k s α0 b0 b1 eb0 eb1 i) + (LowGear.dealer_tags k s α1 b1 b0 eb1 eb0 i)) % 2 ^ (k + s) = _
    unfold LowGear.dealer_tags
    rw [← Int.add_emod]
    congr 1
    ring
  have hs0 : ∀ i, Truncer.shift k s ((LowGear.party_inputs k s α0 α1 a0 b0 b1 (LowGear.dealer_tags k s α0 b0 b1 eb0 eb1) (LowGear.dealer_tags k s α1 b1 b0 eb1 eb0) e00 e01 e10 e11 e20 e21).wide_a i) =
      a0 i % 2 ^ (k + s) / 2 ^ s := fun i => shift_of_small k s (a0 i)
  have hs1 : ∀ i, Truncer.shift k s ((LowGear.party_inputs k s α1 α0 a1 b1 b0 (LowGear.dealer_tags k s α1 b1 b0 eb1 eb0) (LowGear.dealer_tags k s α0 b0 b1 eb0 eb1) e01 e00 e11 e10 e21 e20).wide_a i) =
      a1 i % 2 ^ (k + s) / 2 ^ s := fun i => shift_of_small k s (a1 i)
  refine ⟨_, _, _, _, _, _, _, _, hjoint, ?_⟩
  intro i
  have hsum_at := pair_out_sum k s _ _ _ (hkey_at i)
  have hsum_c := pair_out_sum k s _ _ _ (hkey_c i)
  have hsum_ct := pair_out_sum k s _ _ _ (hkey_ct i)
  have hdvdk : (2 : ℤ) ^ k ∣ 2 ^ (k + s) := pow_dvd_pow 2 (by omega)
  have hcmod : (Truncer.shift k s
        (((Truncer.hats k s α0 (LowGear.party_inputs k s α0 α1 a0 b0 b1 (LowGear.dealer_tags k s α0 b0 b1 eb0 eb1) (LowGear.dealer_tags k s α1 b1 b0 eb1 eb0) e00 e01 e10 e11 e20 e21) fun j => (LowGear.party_inputs k s α1 α0 a1 b1 b0 (LowGear.dealer_tags k s α1 b1 b0 eb1 eb0) (LowGear.dealer_tags k s α0 b0 b1 eb0 eb1) e01 e00 e11 e10 e21 e20).wide_a j % 2 ^ s).hat_c i + (Truncer.hats k s α1 (LowGear.party_inputs k s α1 α0 a1 b1 b0 (LowGear.dealer_tags k s α1 b1 b0 eb1 eb0) (LowGear.dealer_tags k s α0 b0 b1 eb0 eb1) e01 e00 e11 e10 e21 e20) fun j => (LowGear.party_inputs k s α0 α1 a0 b0 b1 (LowGear.dealer_tags k s α0 b0 b1 eb0 eb1) (LowGear.dealer_tags k s α1 b1 b0 eb1 eb0) e00 e01 e10 e11 e20 e21).wide_a j % 2 ^ s).hat_c i % 2 ^ s) % 2 ^ (k + 2 * s)) +
      Truncer.shift k s ((Truncer.hats k s α1 (LowGear.party_inputs k s α1 α0 a1 b1 b0 (LowGear.dealer_tags k s α1 b1 b0 eb1 eb0) (LowGear.dealer_tags k s α0 b0 b1 eb0 eb1) e01 e00 e11 e10 e21 e20) fun j => (LowGear.party_inputs k s α0 α1 a0 b0 b1 (LowGear.dealer_tags k s α0 b0 b1 eb0 eb1) (LowGear.dealer_tags k s α1 b1 b0 eb1 eb0) e00 e01 e10 e11 e20 e21).wide_a j % 2 ^ s).hat_c i)) % 2 ^ k =
      ((a0 i % 2 ^ (k + s) / 2 ^ s + a1 i % 2 ^ (k + s) / 2 ^ s) * (b0 i % 2 ^ k + b1 i % 2 ^ k)) % 2 ^ k := by
    calc (Truncer.shift k s
          (((Truncer.hats k s α0 (LowGear.party_inputs k s α0 α1 a0 b0 b1 (LowGear.dealer_tags k s α0 b0 b1 eb0 eb1) (LowGear.dealer_tags k s α1 b1 b0 eb1 eb0) e00 e01 e10 e11 e20 e21) fun j => (LowGear.party_inputs k s α1 α0 a1 b1 b0 (LowGear.dealer_tags k s α1 b1 b0 eb1 eb0) (LowGear.dealer_tags k s α0 b0 b1 eb0 eb1) e01 e00 e11 e10 e21 e20).wide_a j % 2 ^ s).hat_c i + (Truncer.hats k s α1 (LowGear.party_inputs k s α1 α0 a1 b1 b0 (LowGear.dealer_tags k s α1 b1 b0 eb1 eb0) (LowGear.dealer_tags k s α0 b0 b1 eb0 eb1) e01 e00 e11 e10 e21 e20) fun j => (LowGear.party_inputs k s α0 α1 a0 b0 b1 (LowGear.dealer_tags k s α0 b0 b1 eb0 eb1) (LowGear.dealer_tags k s α1 b1 b0 eb1 eb0) e00 e01 e10 e11 e20 e21).wide_a j % 2 ^ s).hat_c i % 2 ^ s) % 2 ^ (k + 2 * s)) +
        Truncer.shift k s ((Truncer.hats k s α1 (LowGear.party_inputs k s α1 α0 a1 b1 b0 (LowGear.dealer_tags k s α1 b1 b0 eb1 eb0) (LowGear.dealer_tags k s α0 b0 b1 eb0 eb1) e01 e00 e11 e10 e21 e20) fun j => (LowGear.party_inputs k s α0 α1 a0 b0 b1 (LowGear.dealer_tags k s α0 b0 b1 eb0 eb1) (LowGear.dealer_tags k s α1 b1 b0 eb1 eb0) e00 e01 e10 e11 e20 e21).wide_a j % 2 ^ s).hat_c i)) % 2 ^ k
        = (Truncer.shift k s
            (((Truncer.hats k s α0 (LowGear.party_inputs k s α0 α1 a0 b0 b1 (LowGear.dealer_tags k s α0 b0 b1 eb0 eb1) (LowGear.dealer_tags k s α1 b1 b0 eb1 eb0) e00 e01 e10 e11 e20 e21) fun j => (LowGear.party_inputs k s α1 α0 a1 b1 b0 (LowGear.dealer_tags k s α1 b1 b0 eb1 eb0) (LowGear.dealer_tags k s α0 b0 b1 eb0 eb1) e01 e00 e11 e10 e21 e20).wide_a j % 2 ^ s).hat_c i + (Truncer.hats k s α1 (LowGear.party_inputs k s α1 α0 a1 b1 b0 (LowGear.dealer_tags k s α1 b1 b0 eb1 eb0) (LowGear.dealer_tags k s α0 b0 b1 eb0 eb1) e01 e00 e11 e10 e21 e20) fun j => (LowGear.party_inputs k s α0 α1 a0 b0 b1 (LowGear.dealer_tags k s α0 b0 b1 eb0 eb1) (LowGear.dealer_tags k s α1 b1 b0 eb1 eb0) e00 e01 e10 e11 e20 e21).wide_a j % 2 ^ s).hat_c i % 2 ^ s) % 2 ^ (k + 2 * s)) +
          Truncer.shift k s ((Truncer.hats k s α1 (LowGear.party_inputs k s α1 α0 a1 b1 b0 (LowGear.dealer_tags k s α1 b1 b0 eb1 eb0) (LowGear.dealer_tags k s α0 b0 b1 eb0 eb1) e01 e00 e11 e10 e21 e20) fun j => (LowGear.party_inputs k s α0 α1 a0 b0 b1 (LowGear.dealer_tags k s α0 b0 b1 eb0 eb1) (LowGear.dealer_tags k s α1 b1 b0 eb1 eb0) e00 e01 e10 e11 e20 e21).wide_a j % 2 ^ s).hat_c i)) % 2 ^ (k + s) % 2 ^ k :=
          (Int.emod_emod_of_dvd _ hdvdk).symm
      _ = ((a0 i % 2 ^ (k + s) / 2 ^ s + a1 i % 2 ^ (k + s) / 2 ^ s) * (b0 i % 2 ^ k + b1 i % 2 ^ k)) % 2 ^ (k + s) % 2 ^ k := by rw [hsum_c]
      _ = ((a0 i % 2 ^ (k + s) / 2 ^ s + a1 i % 2 ^ (k + s) / 2 ^ s) * (b0 i % 2 ^ k + b1 i % 2 ^ k)) % 2 ^ k := Int.emod_emod_of_dvd _ hdvdk
  refine ⟨?_, ?_, hmacb i, ?_⟩
  · show ((Truncer.shift k s ((LowGear.party_inputs k s α0 α1 a0 b0 b1 (LowGear.dealer_tags k s α0 b0 b1 eb0 eb1) (LowGear.dealer_tags k s α1 b1 b0 eb1 eb0) e00 e01 e10 e11 e20 e21).wide_a i) + Truncer.shift k s ((LowGear.party_inputs k s α1 α0 a1 b1 b0 (LowGear.dealer_tags k s α1 b1 b0 eb1 eb0) (LowGear.dealer_tags k s α0 b0 b1 eb0 eb1) e01 e00 e11 e10 e21 e20).wide_a i)) *
        (b0 i % 2 ^ k + b1 i % 2 ^ k)) % 2 ^ k =
      (Truncer.shift k s
          (((Truncer.hats k s α0 (LowGear.party_inputs k s α0 α1 a0 b0 b1 (LowGear.dealer_tags k s α0 b0 b1 eb0 eb1) (LowGear.dealer_tags k s α1 b1 b0 eb1 eb0) e00 e01 e10 e11 e20 e21) fun j => (LowGear.party_inputs k s α1 α0 a1 b1 b0 (LowGear.dealer_tags k s α1 b1 b0 eb1 eb0) (LowGear.dealer_tags k s α0 b0 b1 eb0 eb1) e01 e00 e11 e10 e21 e20).wide_a j % 2 ^ s).hat_c i + (Truncer.hats k s α1 (LowGear.party_inputs k s α1 α0 a1 b1 b0 (LowGear.dealer_tags k s α1 b1 b0 eb1 eb0) (LowGear.dealer_tags k s α0 b0 b1 eb0 eb1) e01 e00 e11 e10 e21 e20) fun j => (LowGear.party_inputs k s α0 α1 a0 b0 b1 (LowGear.dealer_tags k s α0 b0 b1 eb0 eb1) (LowGear.dealer_tags k s α1 b1 b0 eb1 eb0) e00 e01 e10 e11 e20 e21).wide_a j % 2 ^ s).hat_c i % 2 ^ s) % 2 ^ (k + 2 * s)) +
        Truncer.shift k s ((Truncer.hats k s α1 (LowGear.party_inputs k s α1 α0 a1 b1 b0 (LowGear.dealer_tags k s α1 b1 b0 eb1 eb0) (LowGear.dealer_tags k s α0 b0 b1 eb0 eb1) e01 e00 e11 e10 e21 e20) fun j => (LowGear.party_inputs k s α0 α1 a0 b0 b1 (LowGear.dealer_tags k s α0 b0 b1 eb0 eb1) (LowGear.dealer_tags k s α1 b1 b0 eb1 eb0) e00 e01 e10 e11 e20 e21).wide_a j % 2 ^ s).hat_c i)) % 2 ^ k
    rw [hs0 i, hs1 i, hcmod]
  · show (Truncer.shift k s
          (((Truncer.hats k s α0 (LowGear.party_inputs k s α0 α1 a0 b0 b1 (LowGear.dealer_tags k s α0 b0 b1 eb0 eb1) (LowGear.dealer_tags k s α1 b1 b0 eb1 eb0) e00 e01 e10 e11 e20 e21) fun j => (LowGear.party_inputs k s α1 α0 a1 b1 b0 (LowGear.dealer_tags k s α1 b1 b0 eb1 eb0) (LowGear.dealer_tags k s α0 b0 b1 eb0 eb1) e01 e00 e11 e10 e21 e20).wide_a j % 2 ^ s).hat_a_tags i + (Truncer.hats k s α1 (LowGear.party_inputs k s α1 α0 a1 b1 b0 (LowGear.dealer_tags k s α1 b1 b0 eb1 eb0) (LowGear.dealer_tags k s α0 b0 b1 eb0 eb1) e01 e00 e11 e10 e21 e20) fun j => (LowGear.party_inputs k s α0 α1 a0 b0 b1 (LowGear.dealer_tags k s α0 b0 b1 eb0 eb1) (LowGear.dealer_tags k s α1 b1 b0 eb1 eb0) e00 e01 e10 e11 e20 e21).wide_a j % 2 ^ s).hat_a_tags i % 2 ^ s) % 2 ^ (k + 2 * s)) +
        Truncer.shift k s ((Truncer.hats k s α1 (LowGear.party_inputs k s α1 α0 a1 b1 b0 (LowGear.dealer_tags k s α1 b1 b0 eb1 eb0) (LowGear.dealer_tags k s α0 b0 b1 eb0 eb1) e01 e00 e11 e10 e21 e20) fun j => (LowGear.party_inputs k s α0 α1 a0 b0 b1 (LowGear.dealer_tags k s α0 b0 b1 eb0 eb1) (LowGear.dealer_tags k s α1 b1 b0 eb1 eb0) e00 e01 e10 e11 e20 e21).wide_a j % 2 ^ s).hat_a_tags i)) % 2 ^ (k + s) =
      ((α0 % 2 ^ s + α1 % 2 ^ s) * (Truncer.shift k s ((LowGear.party_inputs k s α0 α1 a0 b0 b1 (LowGear.dealer_tags k s α0 b0 b1 eb0 eb1) (LowGear.dealer_tags k s α1 b1 b0 eb1 eb0) e00 e01 e10 e11 e20 e21).wide_a i) +
        Truncer.shift k s ((LowGear.party_inputs k s α1 α0 a1 b1 b0 (LowGear.dealer_tags k s α1 b1 b0 eb1 eb0) (LowGear.dealer_tags k s α0 b0 b1 eb0 eb1) e01 e00 e11 e10 e21 e20).wide_a i))) % 2 ^ (k + s)
    rw [hsum_at, hs0 i, hs1 i]
    congr 1
    ring
  · show (Truncer.shift k s
          (((Truncer.hats k s α0 (LowGear.party_inputs k s α0 α1 a0 b0 b1 (LowGear.dealer_tags k s α0 b0 b1 eb0 eb1) (LowGear.dealer_tags k s α1 b1 b0 eb1 eb0) e00 e01 e10 e11 e20 e21) fun j => (LowGear.party_inputs k s α1 α0 a1 b1 b0 (LowGear.dealer_tags k s α1 b1 b0 eb1 eb0) (LowGear.dealer_tags k s α0 b0 b1 eb0 eb1) e01 e00 e11 e10 e21 e20).wide_a j % 2 ^ s).hat_c_tags i + (Truncer.hats k s α1 (LowGear.party_inputs k s α1 α0 a1 b1 b0 (LowGear.dealer_tags k s α1 b1 b0 eb1 eb0) (LowGear.dealer_tags k s α0 b0 b1 eb0 eb1) e01 e00 e11 e10 e21 e20) fun j => (LowGear.party_inputs k s α0 α1 a0 b0 b1 (LowGear.dealer_tags k s α0 b0 b1 eb0 eb1) (LowGear.dealer_tags k s α1 b1 b0 eb1 eb0) e00 e01 e10 e11 e20 e21).wide_a j % 2 ^ s).hat_c_tags i % 2 ^ s) % 2 ^ (k + 2 * s)) +
        Truncer.shift k s ((Truncer.hats k s α1 (LowGear.party_inputs k s α1 α0 a1 b1 b0 (LowGear.dealer_tags k s α1 b1 b0 eb1 eb0) (LowGear.dealer_tags k s α0 b0 b1 eb0 eb1) e01 e00 e11 e10 e21 e20) fun j => (LowGear.party_inputs k s α0 α1 a0 b0 b1 (LowGear.dealer_tags k s α0 b0 b1 eb0 eb1) (LowGear.dealer_tags k s α1 b1 b0 eb1 eb0) e00 e01 e10 e11 e20 e21).wide_a j % 2 ^ s).hat_c_tags i)) % 2 ^ (k + s) =
      ((α0 % 2 ^ s + α1 % 2 ^ s) * (Truncer.shift k s
          (((Truncer.hats k s α0 (LowGear.party_inputs k s α0 α1 a0 b0 b1 (LowGear.dealer_tags k s α0 b0 b1 eb0 eb1) (LowGear.dealer_tags k s α1 b1 b0 eb1 eb0) e00 e01 e10 e11 e20 e21) fun j => (LowGear.party_inputs k s α1 α0 a1 b1 b0 (LowGear.dealer_tags k s α1 b1 b0 eb1 eb0) (LowGear.dealer_tags k s α0 b0 b1 eb0 eb1) e01 e00 e11 e10 e21 e20).wide_a j % 2 ^ s).hat_c i + (Truncer.hats k s α1 (LowGear.party_inputs k s α1 α0 a1 b1 b0 (LowGear.dealer_tags k s α1 b1 b0 eb1 eb0) (LowGear.dealer_tags k s α0 b0 b1 eb0 eb1) e01 e00 e11 e10 e21 e20) fun j => (LowGear.party_inputs k s α0 α1 a0 b0 b1 (LowGear.dealer_tags k s α0 b0 b1 eb0 eb1) (LowGear.dealer_tags k s α1 b1 b0 eb1 eb0) e00 e01 e10 e11 e20 e21).wide_a j % 2 ^ s).hat_c i % 2 ^ s) % 2 ^ (k + 2 * s)) +
        Truncer.shift k s ((Truncer.hats k s α1 (LowGear.party_inputs k s α1 α0 a1 b1 b0 (LowGear.dealer_tags k s α1 b1 b0 eb1 eb0) (LowGear.dealer_tags k s α0 b0 b1 eb0 eb1) e01 e00 e11 e10 e21 e20) fun j => (LowGear.party_inputs k s α0 α1 a0 b0 b1 (LowGear.dealer_tags k s α0 b0 b1 eb0 eb1) (LowGear.dealer_tags k s α1 b1 b0 eb1 eb0) e00 e01 e10 e11 e20 e21).wide_a j % 2 ^ s).hat_c i))) % 2 ^ (k + s)
    rw [hsum_ct]
    have hdt0 : LowGear.dealer_tags k s α0 b0 b1 eb0 eb1 i % 2 ^ (k + s) = LowGear.dealer_tags k s α0 b0 b1 eb0 eb1 i :=
      Int.emod_emod_of_dvd _ dvd_rfl
    have hdt1 : LowGear.dealer_tags k s α1 b1 b0 eb1 eb0 i % 2 ^ (k + s) = LowGear.dealer_tags k s α1 b1 b0 eb1 eb0 i :=
      Int.emod_emod_of_dvd _ dvd_rfl
    rw [hdt0, hdt1]
    have m2 : ((a0 i % 2 ^ (k + s) / 2 ^ s + a1 i % 2 ^ (k + s) / 2 ^ s) * (LowGear.dealer_tags k s α0 b0 b1 eb0 eb1 i + LowGear.dealer_tags k s α1 b1 b0 eb1 eb0 i)) % 2 ^ (k + s) =
        ((a0 i % 2 ^ (k + s) / 2 ^ s + a1 i % 2 ^ (k + s) / 2 ^ s) * ((α0 % 2 ^ s + α1 % 2 ^ s) * (b0 i % 2 ^ k + b1 i % 2 ^ k))) % 2 ^ (k + s) :=
      Int.ModEq.mul_left (a0 i % 2 ^ (k + s) / 2 ^ s + a1 i % 2 ^ (k + s) / 2 ^ s) (hmacb i)
    have m3 : ((α0 % 2 ^ s + α1 % 2 ^ s) * ((Truncer.shift k s
          (((Truncer.hats k s α0 (LowGear.party_inputs k s α0 α1 a0 b0 b1 (LowGear.dealer_tags k s α0 b0 b1 eb0 eb1) (LowGear.dealer_tags k s α1 b1 b0 eb1 eb0) e00 e01 e10 e11 e20 e21) fun j => (LowGear.party_inputs k s α1 α0 a1 b1 b0 (LowGear.dealer_tags k s α1 b1 b0 eb1 eb0) (LowGear.dealer_tags k s α0 b0 b1 eb0 eb1) e01 e00 e11 e10 e21 e20).wide_a j % 2 ^ s).hat_c i + (Truncer.hats k s α1 (LowGear.party_inputs k s α1 α0 a1 b1 b0 (LowGear.dealer_tags k s α1 b1 b0 eb1 eb0) (LowGear.dealer_tags k s α0 b0 b1 eb0 eb1) e01 e00 e11 e10 e21 e20) fun j => (LowGear.party_inputs k s α0 α1 a0 b0 b1 (LowGear.dealer_tags k s α0 b0 b1 eb0 eb1) (LowGear.dealer_tags k s α1 b1 b0 eb1 eb0) e00 e01 e10 e11 e20 e21).wide_a j % 2 ^ s).hat_c i % 2 ^ s) % 2 ^ (k + 2 * s)) +
        Truncer.shift k s ((Truncer.hats k s α1 (LowGear.party_inputs k s α1 α0 a1 b1 b0 (LowGear.dealer_tags k s α1 b1 b0 eb1 eb0) (LowGear.dealer_tags k s α0 b0 b1 eb0 eb1) e01 e00 e11 e10 e21 e20) fun j => (LowGear.party_inputs k s α0 α1 a0 b0 b1 (LowGear.dealer_tags k s α0 b0 b1 eb0 eb1) (LowGear.dealer_tags k s α1 b1 b0 eb1 eb0) e00 e01 e10 e11 e20 e21).wide_a j % 2 ^ s).hat_c i)))) % 2 ^ (k + s) =
        ((α0 % 2 ^ s + α1 % 2 ^ s) * ((a0 i % 2 ^ (k + s) / 2 ^ s + a1 i % 2 ^ (k + s) / 2 ^ s) * (b0 i % 2 ^ k + b1 i % 2 ^ k))) % 2 ^ (k + s) :=
      Int.ModEq.mul_left (α0 % 2 ^ s + α1 % 2 ^ s) hsum_c
    calc ((a0 i % 2 ^ (k + s) / 2 ^ s + a1 i % 2 ^ (k + s) / 2 ^ s) * (LowGear.dealer_tags k s α0 b0 b1 eb0 eb1 i + LowGear.dealer_tags k s α1 b1 b0 eb1 eb0 i)) % 2 ^ (k + s)
        = ((a0 i % 2 ^ (k + s) / 2 ^ s + a1 i % 2 ^ (k + s) / 2 ^ s) * ((α0 % 2 ^ s + α1 % 2 ^ s) * (b0 i % 2 ^ k + b1 i % 2 ^ k))) % 2 ^ (k + s) := m2
      _ = ((α0 % 2 ^ s + α1 % 2 ^ s) * ((a0 i % 2 ^ (k + s) / 2 ^ s + a1 i % 2 ^ (k + s) / 2 ^ s) * (b0 i % 2 ^ k + b1 i % 2 ^ k))) % 2 ^ (k + s) := by
          congr 1
          ring
      _ = ((α0 % 2 ^ s + α1 % 2 ^ s) * ((Truncer.shift k s
            (((Truncer.hats k s α0 (LowGear.party_inputs k s α0 α1 a0 b0 b1 (LowGear.dealer_tags k s α0 b0 b1 eb0 eb1) (LowGear.dealer_tags k s α1 b1 b0 eb1 eb0) e00 e01 e10 e11 e20 e21) fun j => (LowGear.party_inputs k s α1 α0 a1 b1 b0 (LowGear.dealer_tags k s α1 b1 b0 eb1 eb0) (LowGear.dealer_tags k s α0 b0 b1 eb0 eb1) e01 e00 e11 e10 e21 e20).wide_a j % 2 ^ s).hat_c i + (Truncer.hats k s α1 (LowGear.party_inputs k s α1 α0 a1 b1 b0 (LowGear.dealer_tags k s α1 b1 b0 eb1 eb0) (LowGear.dealer_tags k s α0 b0 b1 eb0 eb1) e01 e00 e11 e10 e21 e20) fun j => (LowGear.party_inputs k s α0 α1 a0 b0 b1 (LowGear.dealer_tags k s α0 b0 b1 eb0 eb1) (LowGear.dealer_tags k s α1 b1 b0 eb1 eb0) e00 e01 e10 e11 e20 e21).wide_a j % 2 ^ s).hat_c i % 2 ^ s) % 2 ^ (k + 2 * s)) +
          Truncer.shift k s ((Truncer.hats k s α1 (LowGear.party_inputs k s α1 α0 a1 b1 b0 (LowGear.dealer_tags k s α1 b1 b0 eb1 eb0) (LowGear.dealer_tags k s α0 b0 b1 eb0 eb1) e01 e00 e11 e10 e21 e20) fun j => (LowGear.party_inputs k s α0 α1 a0 b0 b1 (LowGear.dealer_tags k s α0 b0 b1 eb0 eb1) (LowGear.dealer_tags k s α1 b1 b0 eb1 eb0) e00 e01 e10 e11 e20 e21).wide_a j % 2 ^ s).hat_c i)))) % 2 ^ (k + s) := m3.symm

/-- Witness for C1 at `k = s = 1`, one slot, zero keys, shares and masks. -/
theorem c1_beaver_triples_witness :
    ∃ qa0 qat0 qc0 qct0 qa1 qat1 qc1 qct1 : Fin 1 → ℤ,
      LowGear.beaver_joint 1 1 0 0 (fun _ : Fin 1 => (0 : ℤ)) (fun _ : Fin 1 => (0 : ℤ)) (fun _ : Fin 1 => (0 : ℤ)) (fun _ : Fin 1 => (0 : ℤ)) (fun _ : Fin 1 => (0 : ℤ)) (fun _ : Fin 1 => (0 : ℤ)) (fun _ : Fin 1 => (0 : ℤ)) (fun _ : Fin 1 => (0 : ℤ)) (fun _ : Fin 1 => (0 : ℤ)) (fun _ : Fin 1 => (0 : ℤ)) (fun _ : Fin 1 => (0 : ℤ)) (fun _ : Fin 1 => (0 : ℤ)) =
        (some (qa0, qat0, qc0, qct0), some (qa1, qat1, qc1, qct1)) ∧
      ∀ i,
        ((qa0 i + qa1 i) * ((fun _ : Fin 1 => (0 : ℤ)) i % 2 ^ 1 + (fun _ : Fin 1 => (0 : ℤ)) i % 2 ^ 1)) % 2 ^ 1 =
          (qc0 i + qc1 i) % 2 ^ 1 ∧
        (qat0 i + qat1 i) % 2 ^ (1 + 1) =
          (((0 : ℤ) % 2 ^ 1 + (0 : ℤ) % 2 ^ 1) * (qa0 i + qa1 i)) % 2 ^ (1 + 1) ∧
        (LowGear.dealer_tags 1 1 0 (fun _ : Fin 1 => (0 : ℤ)) (fun _ : Fin 1 => (0 : ℤ)) (fun _ : Fin 1 => (0 : ℤ)) (fun _ : Fin 1 => (0 : ℤ)) i +
            LowGear.dealer_tags 1 1 0 (fun _ : Fin 1 => (0 : ℤ)) (fun _ : Fin 1 => (0 : ℤ)) (fun _ : Fin 1 => (0 : ℤ)) (fun _ : Fin 1 => (0 : ℤ)) i) % 2 ^ (1 + 1) =
          (((0 : ℤ) % 2 ^ 1 + (0 : ℤ) % 2 ^ 1) *
            ((fun _ : Fin 1 => (0 : ℤ)) i % 2 ^ 1 + (fun _ : Fin 1 => (0 : ℤ)) i % 2 ^ 1)) % 2 ^ (1 + 1) ∧
        (qct0 i + qct1 i) % 2 ^ (1 + 1) =
          (((0 : ℤ) % 2 ^ 1 + (0 : ℤ) % 2 ^ 1) * (qc0 i + qc1 i)) % 2 ^ (1 + 1) :=
  c1_beaver_triples 1 1 (by decide) 0 0 (fun _ : Fin 1 => (0 : ℤ)) (fun _ : Fin 1 => (0 : ℤ)) (fun _ : Fin 1 => (0 : ℤ)) (fun _ : Fin 1 => (0 : ℤ)) (fun _ : Fin 1 => (0 : ℤ)) (fun _ : Fin 1 => (0 : ℤ)) (fun _ : Fin 1 => (0 : ℤ)) (fun _ : Fin 1 => (0 : ℤ)) (fun _ : Fin 1 => (0 : ℤ)) (fun _ : Fin 1 => (0 : ℤ)) (fun _ : Fin 1 => (0 : ℤ)) (fun _ : Fin 1 => (0 : ℤ))
